import Mathlib

/-!
Verification of the maze generation and query engine of the Maze game
(`src/Maze.cpp`, `include/Maze.h`, plus the collision helper in `src/Game.cpp`).

The C++ class `Maze` holds a 2D grid (`std::vector<std::vector<uint32_t>>`,
0 = wall, 1 = path), `int width`, `int height`, `float cellSize = 1.0f` and
`glm::ivec2 endParams`.  We embed the grid as `List (List Nat)`, C++ `int`
as `Int` (no overflow occurs in the claims' range), and the float world
coordinates as `Rat` (all coordinate arithmetic appearing in the claims is
exact in binary floating point, so the rational model agrees with the float
computation on those inputs).

The maze carving library `kruksal/kruksal.h` (`maze::kruskal`) is not part of
the repository sources; it is modelled from the spec (randomized Kruskal over
room cells at even coordinates, candidate walls at odd coordinates, union-find
merging), with the random shuffle made explicit as an `order` parameter.
-/

namespace MazeProj

/-- A grid coordinate `(row, col)` (C++ `(z, x)` indices). -/
abbrev Cell := Nat × Nat

/-- C-style cast of a rational number to `int`: truncation toward zero,
the semantics of `(int)q` in C++. -/
def cIntCast (q : Rat) : Int := q.num.tdiv (q.den : Int)

/-- Row-major enumeration of all cells of an `h × w` grid, rows `0..h-1`
each scanned with columns `0..w-1` (the order of the nested loops in
`Maze::FindStartPosition`). -/
def allCells (h w : Nat) : List Cell :=
  (List.range h).flatMap (fun r => (List.range w).map (fun c => (r, c)))

/-- Modelled from the spec (the library `kruksal/kruksal.h` is not in the
sources): a room cell sits at even `(row, col)` coordinates and is always
carved to `Path`. -/
def isRoom (p : Cell) : Bool := p.1 % 2 == 0 && p.2 % 2 == 0

/-- Modelled from the spec: a candidate wall of an `h × w` grid is an
odd-coordinate cell lying directly between two horizontally or vertically
adjacent rooms (exactly one odd coordinate, with both neighbouring rooms in
bounds). -/
def isCand (h w : Nat) (p : Cell) : Bool :=
  (p.1 % 2 == 0 && p.2 % 2 == 1 && decide (p.1 < h) && decide (p.2 + 1 < w))
  || (p.1 % 2 == 1 && p.2 % 2 == 0 && decide (p.1 + 1 < h) && decide (p.2 < w))

/-- Modelled from the spec: the list of candidate walls, in canonical
(row-major) order; the generator processes a shuffle of this list. -/
def candList (h w : Nat) : List Cell := (allCells h w).filter (isCand h w)

/-- Modelled from the spec: the two rooms a candidate wall separates
(`c-1/c+1` in its row for a horizontal wall, `r-1/r+1` in its column for a
vertical one). -/
def sides (p : Cell) : Cell × Cell :=
  if p.2 % 2 == 1 then ((p.1, p.2 - 1), (p.1, p.2 + 1))
  else ((p.1 - 1, p.2), (p.1 + 1, p.2))

/-- Modelled from the spec: state of the carving loop — the union-find
labelling of room cells (each room mapped to its representative), the list of
carved candidate walls, and the number of successful unions. -/
structure GenState where
  label : Cell → Cell
  carved : List Cell
  unions : Nat

/-- Modelled from the spec: initial generator state — every room its own
singleton set (`MakeSet`), nothing carved, no unions performed. -/
def initState : GenState := { label := id, carved := [], unions := 0 }

/-- Modelled from the spec: process one candidate wall.  If the two rooms it
separates already share a representative the wall is kept (carving would
create a cycle); otherwise the two sets are merged (`Union` succeeds) and the
wall is carved. -/
def unionStep (s : GenState) (p : Cell) : GenState :=
  if s.label (sides p).1 == s.label (sides p).2 then s
  else
    { label := fun z => if s.label z == s.label (sides p).1
                        then s.label (sides p).2 else s.label z,
      carved := p :: s.carved,
      unions := s.unions + 1 }

/-- Modelled from the spec: run the carving loop over the shuffled candidate
list. -/
def runKruskal (order : List Cell) : GenState := order.foldl unionStep initState

/-- Modelled from the spec: the finished `h × w` grid of `maze::kruskal`
(`get_maze()`) — a cell is `1` (path) iff it is a room or a carved candidate
wall, else `0` (wall). -/
def kruskalGrid (h w : Nat) (order : List Cell) : List (List Nat) :=
  (List.range h).map (fun r => (List.range w).map (fun c =>
    if isRoom (r, c) || (runKruskal order).carved.contains (r, c) then 1 else 0))

/-- Modelled from the spec: the library entry point used by `Maze::Generate`
(`maze::kruskal generator(h, w); generator.generate(); get_maze()`).  Per
spec section 7, malformed (non-positive) dimensions raise a recoverable
`ConfigurationError`; this is the `none` result.  The ambient random sequence
consumed by the shuffle is the explicit `order` argument. -/
def kruskalGenerate (h w : Int) (order : List Cell) : Option (List (List Nat)) :=
  if h ≤ 0 ∨ w ≤ 0 then none
  else some (kruskalGrid h.toNat w.toNat order)

/-- The C++ class `Maze` (logical data only; the meshes are rendering
resources out of scope). -/
structure Maze where
  grid : List (List Nat)
  width : Int
  height : Int
  cellSize : Rat
  /-- `glm::ivec2 endParams`: `(x, z)` grid coordinates of the exit cell. -/
  endParams : Int × Int

/-- A `Maze` as default-constructed before any generation: empty grid,
zero dimensions, `cellSize = 1.0f`. -/
def maze0 : Maze := { grid := [], width := 0, height := 0, cellSize := 1, endParams := (0, 0) }

/-- `grid[z][x]` with the C++ semantics made total: out-of-range reads are
given the default `0` (they never happen on well-formed grids, claim C9). -/
def gridAt (g : List (List Nat)) (p : Cell) : Nat := (g.getD p.1 []).getD p.2 0

/-- `grid[z][x]` as a fallible read: `none` exactly when one of the two
indices is out of range for the actual nested-vector data. -/
def gridAt? (g : List (List Nat)) (z x : Int) : Option Nat :=
  if z < 0 ∨ x < 0 then none
  else match g[z.toNat]? with
       | none => none
       | some row => row[x.toNat]?

/-- Well-formedness of a grid as an `h × w` matrix: `h` rows, each of
width `w` (the shape `maze::kruskal` guarantees for its output). -/
def gridWF (g : List (List Nat)) (h w : Nat) : Prop :=
  g.length = h ∧ ∀ row ∈ g, row.length = w

/-- The odd-rounding at the top of `Maze::Generate`:
`if (w % 2 == 0) w++;` (C++ and Lean remainders agree on the zero test). -/
def roundOdd (x : Int) : Int := if x % 2 == 0 then x + 1 else x

/-- The reverse scan at the end of `Maze::Generate`: rows `height-1` down to
`0`, columns `width-1` down to `0`, first cell with `grid[z][x] == 1`. -/
def findEndCell (g : List (List Nat)) (h w : Nat) : Option Cell :=
  (allCells h w).reverse.find? (fun p => gridAt g p == 1)

/-- The `found_end` scan of `Maze::Generate`: store the `(x, z)` coordinates
of the first path cell of the reverse scan in `endParams`; when no path cell
exists the `goto` skips every assignment and `endParams` keeps its previous
value. -/
def endScan (g : List (List Nat)) (h w : Int) (old : Int × Int) : Int × Int :=
  match findEndCell g h.toNat w.toNat with
  | some zx => ((zx.2 : Int), (zx.1 : Int))
  | none => old

/-- `Maze::Generate(int w, int h)`: odd-rounds the dimensions, stores them,
then inside a `try` block runs the kruskal library and installs the grid and
the endpoint; a thrown exception is caught, logged to stdout, and swallowed
(the fields already assigned — width and height — keep their new values). -/
def Maze.Generate (m : Maze) (w h : Int) (order : List Cell) : Maze :=
  match kruskalGenerate (roundOdd h) (roundOdd w) order with
  | some g =>
      { m with width := roundOdd w, height := roundOdd h, grid := g,
               endParams := endScan g (roundOdd h) (roundOdd w) m.endParams }
  | none => { m with width := roundOdd w, height := roundOdd h }

/-- `Maze::IsWall(float worldX, float worldZ)`: converts world coordinates to
grid indices with `(int)((world / cellSize) + 0.5f)`, treats out-of-bounds
indices as wall, otherwise tests `grid[gridZ][gridX] == 0`. -/
def Maze.IsWall (m : Maze) (worldX worldZ : Rat) : Bool :=
  let gridX : Int := cIntCast (worldX / m.cellSize + 1/2)
  let gridZ : Int := cIntCast (worldZ / m.cellSize + 1/2)
  if gridX < 0 ∨ gridX ≥ m.width ∨ gridZ < 0 ∨ gridZ ≥ m.height then true
  else (gridAt? m.grid gridZ gridX).getD 0 == 0

/-- The forward scan of `Maze::FindStartPosition`: rows `0..height-1`,
columns `0..width-1`, first cell with `grid[z][x] == 1`. -/
def findStartCell (g : List (List Nat)) (h w : Nat) : Option Cell :=
  (allCells h w).find? (fun p => gridAt g p == 1)

/-- `Maze::FindStartPosition()`: world position of the first path cell in
forward row-major scan order, or the fallback `(0.0f, 0.5f, 0.0f)` (logged as
critical) when the grid has no path cell. -/
def Maze.FindStartPosition (m : Maze) : Rat × Rat × Rat :=
  match findStartCell m.grid m.height.toNat m.width.toNat with
  | some zx => ((zx.2 : Rat) * m.cellSize, 1/2, (zx.1 : Rat) * m.cellSize)
  | none => (0, 1/2, 0)

/-- `CheckCollision(glm::vec3, Maze*)` from `src/Game.cpp`: null maze means
no collision, otherwise a single point lookup at the target position. -/
def CheckCollisionSimple (targetPos : Rat × Rat × Rat) (maze : Option Maze) : Bool :=
  match maze with
  | none => false
  | some m => m.IsWall targetPos.1 targetPos.2.2

/-- The radius variant of `CheckCollision(glm::vec3, Maze*)` (the revised
`Game.cpp`): null maze means no collision, otherwise the centre, the four
cardinal offsets and the four diagonal offsets of a `0.35f` player radius are
all tested against `IsWall`. -/
def CheckCollision (targetPos : Rat × Rat × Rat) (maze : Option Maze) : Bool :=
  match maze with
  | none => false
  | some m =>
      let x := targetPos.1
      let z := targetPos.2.2
      let r : Rat := 7/20
      m.IsWall x z
      || m.IsWall (x + r) z || m.IsWall (x - r) z
      || m.IsWall x (z + r) || m.IsWall x (z - r)
      || m.IsWall (x + r) (z + r) || m.IsWall (x + r) (z - r)
      || m.IsWall (x - r) (z + r) || m.IsWall (x - r) (z - r)

/-- A maze entity whose grid is a single wall cell (no path anywhere),
exercising the `FindStartPosition` fallback branch. -/
def mazeAllWall : Maze := { grid := [[0]], width := 1, height := 1, cellSize := 1, endParams := (0, 0) }

/-- 4-directional (N/S/E/W) adjacency of grid cells, stated additively so it
is well behaved on `Nat` coordinates. -/
def adjacent (p q : Cell) : Prop :=
  (p.1 = q.1 ∧ (p.2 + 1 = q.2 ∨ q.2 + 1 = p.2)) ∨
  (p.2 = q.2 ∧ (p.1 + 1 = q.1 ∨ q.1 + 1 = p.1))

instance (p q : Cell) : Decidable (adjacent p q) := by unfold adjacent; infer_instance

/-- Connectivity through a set `S` of cells: `Reach S p q` holds when there
is a chain of 4-adjacent cells inside `S` from `p` to `q`. -/
inductive Reach (S : Cell → Prop) : Cell → Cell → Prop
  | refl (p : Cell) : S p → Reach S p p
  | tail {p q r : Cell} : Reach S p q → adjacent q r → S r → Reach S p r

/-- A cell of the generated maze is passable iff it is a room or one of the
carved candidate walls. -/
def pathB (order : List Cell) (p : Cell) : Bool :=
  isRoom p || (runKruskal order).carved.contains p

/-- The passable cells of the generated `h × w` grid, as a sublist of the
row-major enumeration. -/
def pathCells (h w : Nat) (order : List Cell) : List Cell :=
  (allCells h w).filter (pathB order)

/-- The passable cells of the generated `h × w` grid, as a finite set. -/
def pathFinset (h w : Nat) (order : List Cell) : Finset Cell :=
  (pathCells h w order).toFinset

/-- The room cells of an `h × w` grid (always passable). -/
def roomList (h w : Nat) : List Cell := (allCells h w).filter isRoom

/-- The number of `1` (path) entries of a grid. -/
def grid1Count (g : List (List Nat)) : Nat := g.flatten.count 1

/-- The adjacency graph of the passable cells of a generated maze: vertices
are the path cells, edges the 4-adjacent pairs of path cells. -/
def pathGraph (h w : Nat) (order : List Cell) :
    SimpleGraph {p : Cell // p ∈ pathFinset h w order} where
  Adj a b := adjacent a.1 b.1
  symm := by
    intro a b hab
    unfold adjacent at *
    rcases hab with ⟨h1, h2⟩ | ⟨h1, h2⟩
    · exact Or.inl ⟨h1.symm, h2.symm⟩
    · exact Or.inr ⟨h1.symm, h2.symm⟩
  loopless := by
    intro a ha
    rcases ha with ⟨h1, h2 | h2⟩ | ⟨h1, h2 | h2⟩ <;> omega

instance (h w : Nat) (order : List Cell) : DecidableRel (pathGraph h w order).Adj := by
  intro a b
  show Decidable (adjacent a.1 b.1)
  infer_instance

/-- Strict lexicographic order on `(row, col)` pairs; row-major scan order
visits cells in increasing `lexLt` order. -/
def lexLt (p q : Cell) : Prop := p.1 < q.1 ∨ (p.1 = q.1 ∧ p.2 < q.2)

/-- The passable cells determined by a list `cv` of carved walls: in-bounds
rooms together with the carved cells.  For the generated grid this coincides
with the cells holding value 1. -/
def pathSet (h w : Nat) (cv : List Cell) (p : Cell) : Prop :=
  (isRoom p = true ∧ p.1 < h ∧ p.2 < w) ∨ p ∈ cv

/-- The number of ordered pairs of 4-adjacent passable cells of the generated
maze — twice the number of edges of the path-adjacency graph. -/
def adjPairCount (h w : Nat) (order : List Cell) : Nat :=
  ((pathCells h w order).map (fun p =>
    ((pathCells h w order).filter (fun q => decide (adjacent p q))).length)).sum

/-- The room cells as a finite set. -/
def roomFinset (h w : Nat) : Finset Cell := (roomList h w).toFinset

/-- The central union-find invariant: rooms carrying the same representative
are connected through the already carved cells. -/
def LabelReachInv (h w : Nat) (s : GenState) : Prop :=
  ∀ a b : Cell, isRoom a = true → a.1 < h → a.2 < w →
    isRoom b = true → b.1 < h → b.2 < w →
    s.label a = s.label b → Reach (pathSet h w s.carved) a b

/-- Every carved cell is a genuine candidate wall of the grid. -/
def CarvedCands (h w : Nat) (s : GenState) : Prop :=
  ∀ c ∈ s.carved, isCand h w c = true

/-- The two side rooms of every carved wall share a representative. -/
def SidesInv (s : GenState) : Prop :=
  ∀ c ∈ s.carved, s.label (sides c).1 = s.label (sides c).2

/-- Converse union-find invariant: rooms connected through the carved cells
share a representative (no connectivity the labelling does not know). -/
def LabelCompleteInv (h w : Nat) (s : GenState) : Prop :=
  ∀ a b : Cell, isRoom a = true → a.1 < h → a.2 < w →
    isRoom b = true → b.1 < h → b.2 < w →
    Reach (pathSet h w s.carved) a b → s.label a = s.label b

/-- Forest invariant: removing a carved wall disconnects its two side rooms
— there is never an alternative route around a carved wall. -/
def NoCycleInv (h w : Nat) (s : GenState) : Prop :=
  ∀ c ∈ s.carved,
    ¬ Reach (fun x => pathSet h w s.carved x ∧ x ≠ c) (sides c).1 (sides c).2

/-- The conjunction of the structural invariants maintained by the carving
fold. -/
def FullInv (h w : Nat) (s : GenState) : Prop :=
  CarvedCands h w s ∧ SidesInv s ∧ LabelCompleteInv h w s ∧ NoCycleInv h w s

/-! ### Basic facts about `Maze.Generate`'s field updates -/

theorem Generate_width (m : Maze) (w h : Int) (order : List Cell) :
    (Maze.Generate m w h order).width = roundOdd w := by
  unfold Maze.Generate
  cases kruskalGenerate (roundOdd h) (roundOdd w) order <;> rfl

theorem Generate_height (m : Maze) (w h : Int) (order : List Cell) :
    (Maze.Generate m w h order).height = roundOdd h := by
  unfold Maze.Generate
  cases kruskalGenerate (roundOdd h) (roundOdd w) order <;> rfl

theorem Generate_cellSize (m : Maze) (w h : Int) (order : List Cell) :
    (Maze.Generate m w h order).cellSize = m.cellSize := by
  unfold Maze.Generate
  cases kruskalGenerate (roundOdd h) (roundOdd w) order <;> rfl

theorem Generate_grid_of_some (m : Maze) (w h : Int) (order : List Cell)
    (g : List (List Nat))
    (hk : kruskalGenerate (roundOdd h) (roundOdd w) order = some g) :
    (Maze.Generate m w h order).grid = g := by
  unfold Maze.Generate
  rw [hk]

theorem Generate_endParams_of_some (m : Maze) (w h : Int) (order : List Cell)
    (g : List (List Nat))
    (hk : kruskalGenerate (roundOdd h) (roundOdd w) order = some g) :
    (Maze.Generate m w h order).endParams =
      endScan g (roundOdd h) (roundOdd w) m.endParams := by
  unfold Maze.Generate
  rw [hk]

theorem Generate_of_none (m : Maze) (w h : Int) (order : List Cell)
    (hk : kruskalGenerate (roundOdd h) (roundOdd w) order = none) :
    Maze.Generate m w h order =
      { m with width := roundOdd w, height := roundOdd h } := by
  unfold Maze.Generate
  rw [hk]

theorem roundOdd_emod (x : Int) : roundOdd x % 2 = 1 := by
  unfold roundOdd
  split
  · next hx => rw [beq_iff_eq] at hx; omega
  · next hx => rw [beq_iff_eq] at hx; omega

theorem roundOdd_pos (x : Int) (hx : 1 ≤ x) : 1 ≤ roundOdd x := by
  unfold roundOdd; split <;> omega

theorem roundOdd_eq (x : Int) : roundOdd x = if x % 2 = 0 then x + 1 else x := by
  unfold roundOdd
  split
  · next hx => rw [beq_iff_eq] at hx; simp [hx]
  · next hx =>
      rw [beq_iff_eq] at hx
      simp [hx]

theorem kruskalGenerate_pos (h w : Int) (order : List Cell)
    (hh : 1 ≤ h) (hw : 1 ≤ w) :
    kruskalGenerate h w order = some (kruskalGrid h.toNat w.toNat order) := by
  unfold kruskalGenerate
  rw [if_neg]
  omega

/-! ### Evaluating the C-style cast and `Maze.IsWall` -/

theorem cIntCast_eq_floor (q : Rat) (hq : 0 ≤ q) : cIntCast q = ⌊q⌋ := by
  rw [Rat.floor_def]
  exact Int.tdiv_eq_ediv (Rat.num_nonneg.mpr hq) (Int.natCast_nonneg q.den)

theorem cIntCast_neg (q : Rat) : cIntCast (-q) = -cIntCast q := by
  unfold cIntCast
  rw [Rat.neg_num, Rat.neg_den, Int.neg_tdiv]

/-- For nonnegative integral world coordinates, `(int)(x + 0.5)` is the
identity. -/
theorem cIntCast_int_add_half (n : Int) (hn : 0 ≤ n) :
    cIntCast ((n : Rat) + 1/2) = n := by
  have hq : (0 : Rat) ≤ (n : Rat) + 1/2 := by
    have : (0 : Rat) ≤ (n : Rat) := by exact_mod_cast hn
    linarith
  rw [cIntCast_eq_floor _ hq, add_comm, Int.floor_add_int]
  norm_num

/-- The world coordinate `-1` (cell size 1) is converted to grid index `0`:
truncation toward zero sends `-0.5` to `0`. -/
theorem cIntCast_neg_one_add_half : cIntCast ((-1 : Rat) + 1/2) = 0 := by
  have hq : ((-1 : Rat) + 1/2) = -(1/2) := by norm_num
  rw [hq, cIntCast_neg]
  have h2 : cIntCast (1/2 : Rat) = 0 := by
    rw [cIntCast_eq_floor _ (by norm_num)]
    norm_num
  rw [h2]
  rfl

/-- The `if`-free evaluation equation of `Maze::IsWall`. -/
theorem IsWall_eq (m : Maze) (x z : Rat) :
    Maze.IsWall m x z =
      if cIntCast (x / m.cellSize + 1/2) < 0 ∨ m.width ≤ cIntCast (x / m.cellSize + 1/2)
         ∨ cIntCast (z / m.cellSize + 1/2) < 0 ∨ m.height ≤ cIntCast (z / m.cellSize + 1/2)
      then true
      else (gridAt? m.grid (cIntCast (z / m.cellSize + 1/2))
              (cIntCast (x / m.cellSize + 1/2))).getD 0 == 0 := rfl

/-! ### Shape and entries of the generated grid -/

theorem kruskalGrid_WF (h w : Nat) (order : List Cell) :
    gridWF (kruskalGrid h w order) h w := by
  constructor
  · simp [kruskalGrid]
  · intro row hrow
    simp only [kruskalGrid, List.mem_map, List.mem_range] at hrow
    obtain ⟨r, -, rfl⟩ := hrow
    simp

theorem gridAt?_of_WF (g : List (List Nat)) (h w : Nat) (hwf : gridWF g h w)
    (z x : Int) (hz : 0 ≤ z) (hzh : z < (h : Int)) (hx : 0 ≤ x) (hxw : x < (w : Int)) :
    (gridAt? g z x).isSome := by
  unfold gridAt?
  rw [if_neg (by omega)]
  have hzlen : z.toNat < g.length := by rw [hwf.1]; omega
  rw [List.getElem?_eq_getElem hzlen]
  have hmem : g[z.toNat] ∈ g := List.getElem_mem hzlen
  have hxlen : x.toNat < (g[z.toNat]).length := by rw [hwf.2 _ hmem]; omega
  simp [List.getElem?_eq_getElem hxlen]

theorem gridAt?_kruskalGrid (h w : Nat) (order : List Cell) (z x : Int)
    (hz : 0 ≤ z) (hzh : z < (h : Int)) (hx : 0 ≤ x) (hxw : x < (w : Int)) :
    gridAt? (kruskalGrid h w order) z x =
      some (if pathB order (z.toNat, x.toNat) then 1 else 0) := by
  unfold gridAt? kruskalGrid pathB
  rw [if_neg (by omega)]
  rw [List.getElem?_map, List.getElem?_range (show z.toNat < h by omega)]
  dsimp only [Option.map_some']
  rw [List.getElem?_map, List.getElem?_range (show x.toNat < w by omega)]
  rfl

theorem kruskalGrid_row (h w : Nat) (order : List Cell) (r : Nat) (hr : r < h) :
    (kruskalGrid h w order).getD r [] =
      (List.range w).map (fun c =>
        if isRoom (r, c) || (runKruskal order).carved.contains (r, c) then 1 else 0) := by
  unfold kruskalGrid
  rw [List.getD_eq_getElem?_getD, List.getElem?_map, List.getElem?_range hr]
  rfl

theorem gridAt_kruskalGrid (h w : Nat) (order : List Cell) (p : Cell)
    (hr : p.1 < h) (hc : p.2 < w) :
    gridAt (kruskalGrid h w order) p = if pathB order p then 1 else 0 := by
  unfold gridAt pathB
  rw [kruskalGrid_row h w order p.1 hr, List.getD_eq_getElem?_getD,
    List.getElem?_map, List.getElem?_range hc]
  rfl

theorem gridAt_kruskalGrid_out (h w : Nat) (order : List Cell) (p : Cell)
    (hout : ¬(p.1 < h ∧ p.2 < w)) :
    gridAt (kruskalGrid h w order) p = 0 := by
  unfold gridAt
  rcases Nat.lt_or_ge p.1 h with hr | hr
  · have hc : w ≤ p.2 := by omega
    rw [kruskalGrid_row h w order p.1 hr, List.getD_eq_getElem?_getD,
      List.getElem?_eq_none (by simpa using hc)]
    rfl
  · rw [List.getD_eq_getElem?_getD (kruskalGrid h w order) p.1 [],
      List.getElem?_eq_none (show (kruskalGrid h w order).length ≤ p.1 by
        simpa [kruskalGrid] using hr)]
    rfl

theorem gridAt_one_iff (h w : Nat) (order : List Cell) (p : Cell) :
    gridAt (kruskalGrid h w order) p = 1 ↔
      p.1 < h ∧ p.2 < w ∧ pathB order p = true := by
  rcases Decidable.em (p.1 < h ∧ p.2 < w) with hin | hout
  · rw [gridAt_kruskalGrid h w order p hin.1 hin.2]
    rcases hb : pathB order p with _ | _
    · simp [hb, hin]
    · simp [hb, hin.1, hin.2]
  · rw [gridAt_kruskalGrid_out h w order p hout]
    simp only [iff_def]
    constructor
    · omega
    · intro hk
      exact absurd ⟨hk.1, hk.2.1⟩ hout

/-! ### Scan order: row-major enumeration is lexicographically sorted -/

theorem mem_allCells (h w : Nat) (p : Cell) :
    p ∈ allCells h w ↔ p.1 < h ∧ p.2 < w := by
  unfold allCells
  rw [List.mem_flatMap]
  constructor
  · rintro ⟨r, hr, hp⟩
    rw [List.mem_map] at hp
    obtain ⟨c, hc, rfl⟩ := hp
    exact ⟨List.mem_range.mp hr, List.mem_range.mp hc⟩
  · rintro ⟨h1, h2⟩
    exact ⟨p.1, List.mem_range.mpr h1, List.mem_map.mpr ⟨p.2, List.mem_range.mpr h2, rfl⟩⟩

theorem allCells_pairwise (h w : Nat) : (allCells h w).Pairwise lexLt := by
  unfold allCells
  rw [List.flatMap_def, List.pairwise_flatten]
  constructor
  · intro l hl
    rw [List.mem_map] at hl
    obtain ⟨r, -, rfl⟩ := hl
    rw [List.pairwise_map]
    exact (List.pairwise_lt_range w).imp (fun hab => Or.inr ⟨rfl, hab⟩)
  · rw [List.pairwise_map]
    refine (List.pairwise_lt_range h).imp ?_
    intro a b hab x hx y hy
    rw [List.mem_map] at hx hy
    obtain ⟨c1, -, rfl⟩ := hx
    obtain ⟨c2, -, rfl⟩ := hy
    exact Or.inl hab

theorem lexLt_ne (p q : Cell) (hpq : lexLt p q) : p ≠ q := by
  intro heq
  subst heq
  rcases hpq with h1 | ⟨h1, h2⟩ <;> omega

theorem lexLt_asymm (p q : Cell) (h1 : lexLt p q) (h2 : lexLt q p) : False := by
  rcases h1 with ha | ⟨ha, hb⟩ <;> rcases h2 with hc | ⟨hc, hd⟩ <;> omega

theorem allCells_nodup (h w : Nat) : (allCells h w).Nodup :=
  (allCells_pairwise h w).imp (fun hab => lexLt_ne _ _ hab)

/-- The first match of `find?` on a `Pairwise R` list is `R`-below every
other match. -/
theorem find?_pairwise_first {α : Type} {R : α → α → Prop} {f : α → Bool}
    {l : List α} (hp : l.Pairwise R) {a : α} (ha : l.find? f = some a) :
    ∀ b ∈ l, f b = true → a = b ∨ R a b := by
  induction l with
  | nil => cases ha
  | cons c t ih =>
      intro b hb hfb
      rcases hfc : f c with _ | _
      · rw [List.find?_cons_of_neg _ (by rw [hfc]; exact Bool.false_ne_true)] at ha
        rcases List.mem_cons.mp hb with rfl | hbt
        · rw [hfb] at hfc; cases hfc
        · exact ih hp.of_cons ha b hbt hfb
      · rw [List.find?_cons_of_pos _ hfc] at ha
        injection ha with ha
        subst ha
        rcases List.mem_cons.mp hb with rfl | hbt
        · exact Or.inl rfl
        · exact Or.inr (List.rel_of_pairwise_cons hp hbt)

/-- The forward row-major scan finds the lexicographically least path
cell. -/
theorem findStartCell_min (g : List (List Nat)) (h w : Nat) (s : Cell)
    (hs : findStartCell g h w = some s) :
    gridAt g s = 1 ∧ s ∈ allCells h w ∧
      ∀ b ∈ allCells h w, gridAt g b = 1 → s = b ∨ lexLt s b := by
  refine ⟨?_, List.mem_of_find?_eq_some hs, ?_⟩
  · have := List.find?_some hs
    simpa using this
  · intro b hb hb1
    exact find?_pairwise_first (allCells_pairwise h w) hs b hb (by simpa using hb1)

/-- The reverse scan finds the lexicographically greatest path cell. -/
theorem findEndCell_max (g : List (List Nat)) (h w : Nat) (e : Cell)
    (he : findEndCell g h w = some e) :
    gridAt g e = 1 ∧ e ∈ allCells h w ∧
      ∀ b ∈ allCells h w, gridAt g b = 1 → e = b ∨ lexLt b e := by
  have hmem : e ∈ allCells h w := by
    have := List.mem_of_find?_eq_some he
    rwa [List.mem_reverse] at this
  refine ⟨?_, hmem, ?_⟩
  · have := List.find?_some he
    simpa using this
  · intro b hb hb1
    have hpw : (allCells h w).reverse.Pairwise (fun a b => lexLt b a) :=
      List.pairwise_reverse.mpr (allCells_pairwise h w)
    exact find?_pairwise_first hpw he b (List.mem_reverse.mpr hb) (by simpa using hb1)

theorem findStartCell_isSome (g : List (List Nat)) (h w : Nat) (p : Cell)
    (hp : p ∈ allCells h w) (hp1 : gridAt g p = 1) :
    ∃ s, findStartCell g h w = some s := by
  rw [← Option.isSome_iff_exists]
  unfold findStartCell
  exact List.find?_isSome.mpr ⟨p, hp, by simpa using hp1⟩

theorem findEndCell_isSome (g : List (List Nat)) (h w : Nat) (p : Cell)
    (hp : p ∈ allCells h w) (hp1 : gridAt g p = 1) :
    ∃ e, findEndCell g h w = some e := by
  rw [← Option.isSome_iff_exists]
  unfold findEndCell
  exact List.find?_isSome.mpr ⟨p, List.mem_reverse.mpr hp, by simpa using hp1⟩

/-! ### Claim C5: odd rounding of the requested dimensions -/

/-- C5: `Maze::Generate` increments each even requested dimension by exactly
one before generation and leaves odd dimensions unchanged, so the stored
`width` and `height` are always odd; in particular `Generate(4, 6)` stores
`width = 5` and `height = 7`. -/
theorem C5_odd_rounding (m : Maze) (w h : Int) (order : List Cell) :
    ((Maze.Generate m w h order).width = if w % 2 = 0 then w + 1 else w)
    ∧ ((Maze.Generate m w h order).height = if h % 2 = 0 then h + 1 else h)
    ∧ (Maze.Generate m w h order).width % 2 = 1
    ∧ (Maze.Generate m w h order).height % 2 = 1
    ∧ (Maze.Generate maze0 4 6 []).width = 5
    ∧ (Maze.Generate maze0 4 6 []).height = 7 := by
  refine ⟨?_, ?_, ?_, ?_, ?_, ?_⟩
  · rw [Generate_width, roundOdd_eq]
  · rw [Generate_height, roundOdd_eq]
  · rw [Generate_width]; exact roundOdd_emod w
  · rw [Generate_height]; exact roundOdd_emod h
  · rw [Generate_width]; decide
  · rw [Generate_height]; decide

/-! ### Claim C10: collision check with a null maze pointer -/

/-- C10: both versions of `CheckCollision(targetPos, maze)` report no
collision (unrestricted movement) for every target position when the maze
pointer is null. -/
theorem C10_checkCollision_null (targetPos : Rat × Rat × Rat) :
    CheckCollision targetPos none = false
    ∧ CheckCollisionSimple targetPos none = false :=
  ⟨rfl, rfl⟩

/-! ### Claim C2: boundary blocking of `Maze::IsWall` -/

/-- C2 counterexample: on the generated 1×1 maze (with `cellSize = 1`) the
collision query at world coordinates `(-1, 0)` computes grid cell `(0, 0)` —
the C cast truncates `-1/1 + 0.5 = -0.5` toward zero — which is an in-bounds
path room, so `IsWall(-1, 0)` returns `false`, not `true` as claimed. -/
theorem C2_counterexample :
    Maze.IsWall (Maze.Generate maze0 1 1 []) (-1) 0 = false
    ∧ (Maze.Generate maze0 1 1 []).width = 1
    ∧ (Maze.Generate maze0 1 1 []).height = 1
    ∧ (Maze.Generate maze0 1 1 []).cellSize = 1 := by
  have hm : Maze.Generate maze0 1 1 [] =
      { grid := [[1]], width := 1, height := 1, cellSize := 1, endParams := (0, 0) } := by
    rfl
  refine ⟨?_, by rw [hm], by rw [hm], by rw [hm]⟩
  rw [hm, IsWall_eq]
  dsimp only
  have hx : cIntCast ((-1 : Rat) / 1 + 1/2) = 0 := by
    rw [show ((-1 : Rat) / 1 + 1/2) = (-1 : Rat) + 1/2 by norm_num]
    exact cIntCast_neg_one_add_half
  have hz : cIntCast ((0 : Rat) / 1 + 1/2) = 0 := by
    rw [show ((0 : Rat) / 1 + 1/2) = ((0 : Int) : Rat) + 1/2 by norm_num]
    exact cIntCast_int_add_half 0 le_rfl
  rw [hx, hz]
  decide

/-- Specialization of `IsWall_eq` to the game's `cellSize = 1`. -/
theorem IsWall_eq_one (m : Maze) (hcs : m.cellSize = 1) (x z : Rat) :
    Maze.IsWall m x z =
      if cIntCast (x + 1/2) < 0 ∨ m.width ≤ cIntCast (x + 1/2)
         ∨ cIntCast (z + 1/2) < 0 ∨ m.height ≤ cIntCast (z + 1/2)
      then true
      else (gridAt? m.grid (cIntCast (z + 1/2)) (cIntCast (x + 1/2))).getD 0 == 0 := by
  rw [IsWall_eq, hcs]
  norm_num

theorem cIntCast_zero_add_half : cIntCast ((0 : Rat) + 1/2) = 0 := by
  rw [show ((0 : Rat) + 1/2) = ((0 : Int) : Rat) + 1/2 by norm_num]
  exact cIntCast_int_add_half 0 le_rfl

/-- C2 amended: for every generated maze with `cellSize = 1`, `IsWall`
returns `true` whenever the computed grid indices fall outside
`[0,width)×[0,height)` — in particular at world `(width, 0)` and
`(0, height)` — and returns `false` only when the computed cell is an
in-bounds path cell.  However `IsWall(-1, 0)` is `false` on every generated
maze: the C cast truncates `-0.5` toward zero, so the computed cell is the
in-bounds path room `(0, 0)`. -/
theorem C2_amended (m0 : Maze) (w h : Int) (order : List Cell)
    (hw : 1 ≤ w) (hh : 1 ≤ h) (hcs : m0.cellSize = 1) :
    Maze.IsWall (Maze.Generate m0 w h order) ((Maze.Generate m0 w h order).width : Rat) 0 = true
    ∧ Maze.IsWall (Maze.Generate m0 w h order) 0 ((Maze.Generate m0 w h order).height : Rat) = true
    ∧ (∀ x z : Rat,
        (cIntCast (x + 1/2) < 0 ∨ (Maze.Generate m0 w h order).width ≤ cIntCast (x + 1/2)
         ∨ cIntCast (z + 1/2) < 0 ∨ (Maze.Generate m0 w h order).height ≤ cIntCast (z + 1/2)) →
        Maze.IsWall (Maze.Generate m0 w h order) x z = true)
    ∧ (∀ x z : Rat, Maze.IsWall (Maze.Generate m0 w h order) x z = false →
        gridAt? (Maze.Generate m0 w h order).grid
          (cIntCast (z + 1/2)) (cIntCast (x + 1/2)) = some 1)
    ∧ Maze.IsWall (Maze.Generate m0 w h order) (-1) 0 = false := by
  have hw1 : 1 ≤ roundOdd w := roundOdd_pos w hw
  have hh1 : 1 ≤ roundOdd h := roundOdd_pos h hh
  have hcs1 : (Maze.Generate m0 w h order).cellSize = 1 := by
    rw [Generate_cellSize]; exact hcs
  have hwidth : (Maze.Generate m0 w h order).width = roundOdd w := Generate_width m0 w h order
  have hheight : (Maze.Generate m0 w h order).height = roundOdd h := Generate_height m0 w h order
  have hgrid : (Maze.Generate m0 w h order).grid =
      kruskalGrid (roundOdd h).toNat (roundOdd w).toNat order :=
    Generate_grid_of_some m0 w h order _ (kruskalGenerate_pos _ _ order hh1 hw1)
  have hcase : ∀ x z : Rat,
      (cIntCast (x + 1/2) < 0 ∨ (Maze.Generate m0 w h order).width ≤ cIntCast (x + 1/2)
       ∨ cIntCast (z + 1/2) < 0 ∨ (Maze.Generate m0 w h order).height ≤ cIntCast (z + 1/2)) →
      Maze.IsWall (Maze.Generate m0 w h order) x z = true := by
    intro x z hg
    rw [IsWall_eq_one _ hcs1, if_pos hg]
  refine ⟨?_, ?_, hcase, ?_, ?_⟩
  · apply hcase
    right; left
    rw [cIntCast_int_add_half _ (by omega)]
  · apply hcase
    right; right; right
    rw [cIntCast_int_add_half _ (by omega)]
  · intro x z hfalse
    rw [IsWall_eq_one _ hcs1] at hfalse
    by_cases hg : cIntCast (x + 1/2) < 0 ∨ (Maze.Generate m0 w h order).width ≤ cIntCast (x + 1/2)
       ∨ cIntCast (z + 1/2) < 0 ∨ (Maze.Generate m0 w h order).height ≤ cIntCast (z + 1/2)
    · rw [if_pos hg] at hfalse; cases hfalse
    · rw [if_neg hg] at hfalse
      push_neg at hg
      obtain ⟨hx0, hxw, hz0, hzh⟩ := hg
      rw [hwidth] at hxw
      rw [hheight] at hzh
      rw [hgrid] at hfalse ⊢
      rw [gridAt?_kruskalGrid _ _ order _ _ hz0 (by omega) hx0 (by omega)] at hfalse ⊢
      rcases hp : pathB order ((cIntCast (z + 1/2)).toNat, (cIntCast (x + 1/2)).toNat) with _ | _
      · rw [hp] at hfalse
        simp at hfalse
      · rfl
  · rw [IsWall_eq_one _ hcs1]
    rw [cIntCast_neg_one_add_half, cIntCast_zero_add_half]
    rw [if_neg (by rw [hwidth, hheight]; omega)]
    rw [hgrid, gridAt?_kruskalGrid _ _ order _ _ le_rfl (by omega) le_rfl (by omega)]
    have hroom : pathB order ((0 : Int).toNat, (0 : Int).toNat) = true := by
      unfold pathB
      rw [show isRoom ((0 : Int).toNat, (0 : Int).toNat) = true from rfl]
      exact Bool.true_or _
    rw [hroom]
    rfl

/-- Witness for the amended C2 at the concrete generated 1×1 maze. -/
theorem C2_amended_witness :
    Maze.IsWall (Maze.Generate maze0 1 1 []) ((Maze.Generate maze0 1 1 []).width : Rat) 0 = true
    ∧ Maze.IsWall (Maze.Generate maze0 1 1 []) 0 ((Maze.Generate maze0 1 1 []).height : Rat) = true
    ∧ (∀ x z : Rat,
        (cIntCast (x + 1/2) < 0 ∨ (Maze.Generate maze0 1 1 []).width ≤ cIntCast (x + 1/2)
         ∨ cIntCast (z + 1/2) < 0 ∨ (Maze.Generate maze0 1 1 []).height ≤ cIntCast (z + 1/2)) →
        Maze.IsWall (Maze.Generate maze0 1 1 []) x z = true)
    ∧ (∀ x z : Rat, Maze.IsWall (Maze.Generate maze0 1 1 []) x z = false →
        gridAt? (Maze.Generate maze0 1 1 []).grid
          (cIntCast (z + 1/2)) (cIntCast (x + 1/2)) = some 1)
    ∧ Maze.IsWall (Maze.Generate maze0 1 1 []) (-1) 0 = false :=
  C2_amended maze0 1 1 [] (by omega) (by omega) rfl

/-! ### Claim C9: the bounds guard of `IsWall` makes the grid access safe -/

/-- C9: under the precondition that the grid field is a `height × width`
matrix, the bounds guard of `Maze::IsWall` ensures the access
`grid[gridZ][gridX]` is in range for every finite input: whenever the guard
passes, the fallible read returns a value (the out-of-range branch is
unreachable). -/
theorem C9_isWall_access_safe (m : Maze)
    (hwf : gridWF m.grid m.height.toNat m.width.toNat) (x z : Rat)
    (hguard : ¬(cIntCast (x / m.cellSize + 1/2) < 0
        ∨ m.width ≤ cIntCast (x / m.cellSize + 1/2)
        ∨ cIntCast (z / m.cellSize + 1/2) < 0
        ∨ m.height ≤ cIntCast (z / m.cellSize + 1/2))) :
    (gridAt? m.grid (cIntCast (z / m.cellSize + 1/2))
       (cIntCast (x / m.cellSize + 1/2))).isSome = true := by
  push_neg at hguard
  obtain ⟨hx0, hxw, hz0, hzh⟩ := hguard
  exact gridAt?_of_WF m.grid _ _ hwf _ _ hz0 (by omega) hx0 (by omega)

/-- Witness for C9 at the all-wall 1×1 maze and world position `(0, 0)`. -/
theorem C9_witness :
    (gridAt? mazeAllWall.grid
       (cIntCast (0 / mazeAllWall.cellSize + 1/2))
       (cIntCast (0 / mazeAllWall.cellSize + 1/2))).isSome = true := by
  have hcast : cIntCast ((0 : Rat) / mazeAllWall.cellSize + 1/2) = 0 := by
    rw [show (0 : Rat) / mazeAllWall.cellSize + 1/2 = (0 : Rat) + 1/2 by norm_num]
    exact cIntCast_zero_add_half
  exact C9_isWall_access_safe mazeAllWall
    ⟨rfl, fun row hrow => by rw [List.mem_singleton.mp hrow]; rfl⟩ 0 0
    (by rw [hcast]; decide)

/-! ### Claim C6: the cached endpoint is the reverse-scan-first path cell -/

/-- C6: after a successful generation the cached `endParams` holds the
`(x, z)` coordinates of the first path cell found scanning rows from
`height-1` down to `0` and columns from `width-1` down to `0` — which is the
path cell with the lexicographically greatest `(row, col)` — computed once
from the freshly generated grid. -/
theorem C6_endpoint (m0 : Maze) (w h : Int) (order : List Cell)
    (hw : 1 ≤ w) (hh : 1 ≤ h) :
    ∃ e : Cell,
      findEndCell (Maze.Generate m0 w h order).grid
          (Maze.Generate m0 w h order).height.toNat
          (Maze.Generate m0 w h order).width.toNat = some e
      ∧ (Maze.Generate m0 w h order).endParams = ((e.2 : Int), (e.1 : Int))
      ∧ gridAt (Maze.Generate m0 w h order).grid e = 1
      ∧ ∀ b ∈ allCells (Maze.Generate m0 w h order).height.toNat
            (Maze.Generate m0 w h order).width.toNat,
          gridAt (Maze.Generate m0 w h order).grid b = 1 → e = b ∨ lexLt b e := by
  have hw1 : 1 ≤ roundOdd w := roundOdd_pos w hw
  have hh1 : 1 ≤ roundOdd h := roundOdd_pos h hh
  have hk := kruskalGenerate_pos (roundOdd h) (roundOdd w) order hh1 hw1
  have hgrid : (Maze.Generate m0 w h order).grid =
      kruskalGrid (roundOdd h).toNat (roundOdd w).toNat order :=
    Generate_grid_of_some m0 w h order _ hk
  have hheight : (Maze.Generate m0 w h order).height = roundOdd h := Generate_height m0 w h order
  have hwidth : (Maze.Generate m0 w h order).width = roundOdd w := Generate_width m0 w h order
  have hroom : gridAt (kruskalGrid (roundOdd h).toNat (roundOdd w).toNat order) (0, 0) = 1 := by
    rw [gridAt_one_iff]
    refine ⟨by omega, by omega, ?_⟩
    unfold pathB
    rw [show isRoom (0, 0) = true from rfl]
    exact Bool.true_or _
  have hmem : ((0, 0) : Cell) ∈ allCells (roundOdd h).toNat (roundOdd w).toNat := by
    rw [mem_allCells]
    constructor <;> omega
  obtain ⟨e, he⟩ := findEndCell_isSome _ _ _ (0, 0) hmem hroom
  refine ⟨e, ?_, ?_, ?_, ?_⟩
  · rw [hgrid, hheight, hwidth]
    exact he
  · rw [Generate_endParams_of_some m0 w h order _ hk]
    unfold endScan
    rw [he]
  · rw [hgrid]
    exact (findEndCell_max _ _ _ e he).1
  · rw [hgrid, hheight, hwidth]
    exact (findEndCell_max _ _ _ e he).2.2

/-- Witness for C6 at the concrete generated 1×1 maze. -/
theorem C6_witness :
    ∃ e : Cell,
      findEndCell (Maze.Generate maze0 1 1 []).grid
          (Maze.Generate maze0 1 1 []).height.toNat
          (Maze.Generate maze0 1 1 []).width.toNat = some e
      ∧ (Maze.Generate maze0 1 1 []).endParams = ((e.2 : Int), (e.1 : Int))
      ∧ gridAt (Maze.Generate maze0 1 1 []).grid e = 1
      ∧ ∀ b ∈ allCells (Maze.Generate maze0 1 1 []).height.toNat
            (Maze.Generate maze0 1 1 []).width.toNat,
          gridAt (Maze.Generate maze0 1 1 []).grid b = 1 → e = b ∨ lexLt b e :=
  C6_endpoint maze0 1 1 [] (by omega) (by omega)

/-! ### Claim C8: start cell and end cell differ when two path cells exist -/

/-- C8: in every `h × w` grid with two distinct path cells, the start cell —
the first path cell of the forward row-major scan — differs from the end
cell — the first path cell of the reverse scan. -/
theorem C8_start_ne_end (g : List (List Nat)) (h w : Nat) (p q : Cell)
    (hp : p ∈ allCells h w) (hq : q ∈ allCells h w) (hpq : p ≠ q)
    (hp1 : gridAt g p = 1) (hq1 : gridAt g q = 1) :
    ∃ s e, findStartCell g h w = some s ∧ findEndCell g h w = some e ∧ s ≠ e := by
  obtain ⟨s, hs⟩ := findStartCell_isSome g h w p hp hp1
  obtain ⟨e, he⟩ := findEndCell_isSome g h w p hp hp1
  refine ⟨s, e, hs, he, ?_⟩
  intro hse
  subst hse
  have hps := (findStartCell_min g h w s hs).2.2 p hp hp1
  have hpe := (findEndCell_max g h w s he).2.2 p hp hp1
  have hqs := (findStartCell_min g h w s hs).2.2 q hq hq1
  have hqe := (findEndCell_max g h w s he).2.2 q hq hq1
  have hp_eq : s = p := by
    rcases hps with h1 | h1
    · exact h1
    · rcases hpe with h2 | h2
      · exact h2
      · exact absurd h1 (fun hc => lexLt_asymm _ _ hc h2)
  have hq_eq : s = q := by
    rcases hqs with h1 | h1
    · exact h1
    · rcases hqe with h2 | h2
      · exact h2
      · exact absurd h1 (fun hc => lexLt_asymm _ _ hc h2)
  exact hpq (hp_eq ▸ hq_eq)

/-- Witness for C8 on the concrete 1×2 grid with two path cells. -/
theorem C8_witness :
    ∃ s e, findStartCell [[1, 1]] 1 2 = some s
      ∧ findEndCell [[1, 1]] 1 2 = some e ∧ s ≠ e :=
  C8_start_ne_end [[1, 1]] 1 2 (0, 0) (0, 1) (by decide) (by decide)
    (by decide) (by decide) (by decide)

/-! ### Claim C7: determinism in the injected random sequence -/

/-- C7: generation is deterministic in the random source.  The shuffle
sequence consumed by the (spec-modelled) kruskal library is an explicit
`order` parameter; for the same requested dimensions and the same sequence,
two calls produce identical grids — the grid is a function of
`(w, h, order)` alone, independent of the maze entity's prior state. -/
theorem C7_determinism (m1 m2 : Maze) (w h : Int) (order : List Cell)
    (hw : 1 ≤ w) (hh : 1 ≤ h) :
    (Maze.Generate m1 w h order).grid = (Maze.Generate m2 w h order).grid
    ∧ (Maze.Generate m1 w h order).grid =
        kruskalGrid (roundOdd h).toNat (roundOdd w).toNat order := by
  have hk := kruskalGenerate_pos (roundOdd h) (roundOdd w) order
    (roundOdd_pos h hh) (roundOdd_pos w hw)
  have h1 := Generate_grid_of_some m1 w h order _ hk
  have h2 := Generate_grid_of_some m2 w h order _ hk
  exact ⟨h1.trans h2.symm, h1⟩

/-- Witness for C7: two 5×5 generations from different prior states with the
same shuffle sequence agree. -/
theorem C7_witness :
    (Maze.Generate maze0 5 5 (candList 5 5)).grid
        = (Maze.Generate mazeAllWall 5 5 (candList 5 5)).grid
    ∧ (Maze.Generate maze0 5 5 (candList 5 5)).grid
        = kruskalGrid (roundOdd 5).toNat (roundOdd 5).toNat (candList 5 5) :=
  C7_determinism maze0 mazeAllWall 5 5 (candList 5 5) (by omega) (by omega)

/-! ### Claim C3: atomicity and surfacing of generation errors -/

/-- C3 counterexample: generation failure is neither surfaced nor atomic.
`Generate(-2, -2)` on a fresh maze fails inside the library (a
`ConfigurationError` for non-positive dimensions, modelled from the spec),
the exception is caught and swallowed — `Generate` returns normally — yet the
stored `width` has already been overwritten with the odd-rounded value `-1`,
different from its pre-call value `0`. -/
theorem C3_counterexample :
    kruskalGenerate (roundOdd (-2)) (roundOdd (-2)) [] = none
    ∧ (Maze.Generate maze0 (-2) (-2) []).width = -1
    ∧ maze0.width = 0
    ∧ (Maze.Generate maze0 (-2) (-2) []).grid = maze0.grid := by
  refine ⟨?_, ?_, ?_, ?_⟩ <;> decide

/-- C3 amended: when generation fails internally, `Maze::Generate` catches
and swallows the exception and returns normally; `grid`, `endParams` and
`cellSize` keep their pre-call values, but `width` and `height` have already
been overwritten with the odd-rounded requested dimensions. -/
theorem C3_amended (m : Maze) (w h : Int) (order : List Cell)
    (hk : kruskalGenerate (roundOdd h) (roundOdd w) order = none) :
    (Maze.Generate m w h order).grid = m.grid
    ∧ (Maze.Generate m w h order).endParams = m.endParams
    ∧ (Maze.Generate m w h order).cellSize = m.cellSize
    ∧ (Maze.Generate m w h order).width = roundOdd w
    ∧ (Maze.Generate m w h order).height = roundOdd h := by
  rw [Generate_of_none m w h order hk]
  exact ⟨rfl, rfl, rfl, rfl, rfl⟩

/-- Witness for the amended C3 at the concrete failing call
`Generate(-6, -4)` on a fresh maze. -/
theorem C3_amended_witness :
    (Maze.Generate maze0 (-6) (-4) []).grid = maze0.grid
    ∧ (Maze.Generate maze0 (-6) (-4) []).endParams = maze0.endParams
    ∧ (Maze.Generate maze0 (-6) (-4) []).cellSize = maze0.cellSize
    ∧ (Maze.Generate maze0 (-6) (-4) []).width = roundOdd (-6)
    ∧ (Maze.Generate maze0 (-6) (-4) []).height = roundOdd (-4) :=
  C3_amended maze0 (-6) (-4) [] (by decide)

/-! ### Claim C4: start query on a grid with no path cell -/

/-- C4 counterexample: on a grid with zero path cells, `FindStartPosition`
does not signal an error to the caller — it silently (apart from a log line)
returns the fallback world position `(0, 0.5, 0)`, which is the world
position of cell `(0, 0)`. -/
theorem C4_counterexample :
    findStartCell mazeAllWall.grid mazeAllWall.height.toNat mazeAllWall.width.toNat = none
    ∧ Maze.FindStartPosition mazeAllWall = (0, 1/2, 0) := by
  have hnone : findStartCell mazeAllWall.grid mazeAllWall.height.toNat
      mazeAllWall.width.toNat = none := by decide
  refine ⟨hnone, ?_⟩
  unfold Maze.FindStartPosition
  rw [hnone]

/-- C4 amended: for every maze whose grid contains no path cell (every cell
of the scanned range reads a value other than 1), `FindStartPosition`
returns the fallback position `(0, 0.5, 0)` instead of signalling an
error. -/
theorem C4_amended (m : Maze)
    (hnopath : ∀ p ∈ allCells m.height.toNat m.width.toNat, gridAt m.grid p ≠ 1) :
    Maze.FindStartPosition m = (0, 1/2, 0) := by
  unfold Maze.FindStartPosition
  have hnone : findStartCell m.grid m.height.toNat m.width.toNat = none := by
    unfold findStartCell
    apply List.find?_eq_none.mpr
    intro p hp
    simpa using hnopath p hp
  rw [hnone]

/-- Witness for the amended C4 at the concrete all-wall 1×1 maze. -/
theorem C4_amended_witness : Maze.FindStartPosition mazeAllWall = (0, 1/2, 0) :=
  C4_amended mazeAllWall (by decide)

/-! ### Claim C1, part 1: parity structure of rooms and candidate walls -/

theorem isRoom_iff (p : Cell) : isRoom p = true ↔ p.1 % 2 = 0 ∧ p.2 % 2 = 0 := by
  unfold isRoom
  rw [Bool.and_eq_true, beq_iff_eq, beq_iff_eq]

theorem isCand_iff (h w : Nat) (p : Cell) : isCand h w p = true ↔
    (p.1 % 2 = 0 ∧ p.2 % 2 = 1 ∧ p.1 < h ∧ p.2 + 1 < w) ∨
    (p.1 % 2 = 1 ∧ p.2 % 2 = 0 ∧ p.1 + 1 < h ∧ p.2 < w) := by
  unfold isCand
  rw [Bool.or_eq_true]
  simp only [Bool.and_eq_true, beq_iff_eq, decide_eq_true_eq]
  tauto

theorem mem_candList (h w : Nat) (p : Cell) :
    p ∈ candList h w ↔ isCand h w p = true := by
  unfold candList
  rw [List.mem_filter, mem_allCells]
  constructor
  · exact fun hp => hp.2
  · intro hp
    refine ⟨?_, hp⟩
    rw [isCand_iff] at hp
    omega

theorem candList_nodup (h w : Nat) : (candList h w).Nodup :=
  (allCells_nodup h w).filter _

theorem sides_of_odd_col (p : Cell) (hc : p.2 % 2 = 1) :
    sides p = ((p.1, p.2 - 1), (p.1, p.2 + 1)) := by
  unfold sides
  rw [if_pos (by rw [beq_iff_eq]; exact hc)]

theorem sides_of_even_col (p : Cell) (hc : p.2 % 2 = 0) :
    sides p = ((p.1 - 1, p.2), (p.1 + 1, p.2)) := by
  unfold sides
  rw [if_neg (by rw [beq_iff_eq]; omega)]

/-- The two rooms beside a candidate wall: well-formed rooms in bounds,
4-adjacent to the wall, and distinct. -/
theorem cand_sides (h w : Nat) (p : Cell) (hc : isCand h w p = true) :
    isRoom (sides p).1 = true ∧ isRoom (sides p).2 = true
    ∧ (sides p).1.1 < h ∧ (sides p).1.2 < w
    ∧ (sides p).2.1 < h ∧ (sides p).2.2 < w
    ∧ adjacent p (sides p).1 ∧ adjacent p (sides p).2
    ∧ (sides p).1 ≠ (sides p).2 := by
  rw [isCand_iff] at hc
  rcases hc with ⟨h1, h2, h3, h4⟩ | ⟨h1, h2, h3, h4⟩
  · rw [sides_of_odd_col p h2]
    refine ⟨?_, ?_, by dsimp only; omega, by dsimp only; omega,
      by dsimp only; omega, by dsimp only; omega, ?_, ?_, ?_⟩
    · rw [isRoom_iff]; dsimp only; constructor <;> omega
    · rw [isRoom_iff]; dsimp only; constructor <;> omega
    · unfold adjacent; dsimp only; omega
    · unfold adjacent; dsimp only; omega
    · intro heq
      rw [Prod.ext_iff] at heq
      dsimp only at heq
      omega
  · rw [sides_of_even_col p h2]
    refine ⟨?_, ?_, by dsimp only; omega, by dsimp only; omega,
      by dsimp only; omega, by dsimp only; omega, ?_, ?_, ?_⟩
    · rw [isRoom_iff]; dsimp only; constructor <;> omega
    · rw [isRoom_iff]; dsimp only; constructor <;> omega
    · unfold adjacent; dsimp only; omega
    · unfold adjacent; dsimp only; omega
    · intro heq
      rw [Prod.ext_iff] at heq
      dsimp only at heq
      omega

theorem adjacent_sum_parity (p q : Cell) (hadj : adjacent p q) :
    (p.1 + p.2 + q.1 + q.2) % 2 = 1 := by
  unfold adjacent at hadj
  omega

theorem room_sum_even (p : Cell) (hp : isRoom p = true) : (p.1 + p.2) % 2 = 0 := by
  rw [isRoom_iff] at hp
  omega

theorem cand_sum_odd (h w : Nat) (p : Cell) (hp : isCand h w p = true) :
    (p.1 + p.2) % 2 = 1 := by
  rw [isCand_iff] at hp
  omega

theorem room_not_adjacent_room (p q : Cell)
    (hp : isRoom p = true) (hq : isRoom q = true) : ¬ adjacent p q := by
  intro hadj
  have := adjacent_sum_parity p q hadj
  have := room_sum_even p hp
  have := room_sum_even q hq
  omega

theorem cand_not_adjacent_cand (h w : Nat) (p q : Cell)
    (hp : isCand h w p = true) (hq : isCand h w q = true) : ¬ adjacent p q := by
  intro hadj
  have := adjacent_sum_parity p q hadj
  have := cand_sum_odd h w p hp
  have := cand_sum_odd h w q hq
  omega

/-- A room 4-adjacent to a candidate wall is one of its two sides. -/
theorem room_adjacent_cand (h w : Nat) (p q : Cell)
    (hp : isCand h w p = true) (hq : isRoom q = true) (hadj : adjacent p q) :
    q = (sides p).1 ∨ q = (sides p).2 := by
  rw [isRoom_iff] at hq
  rw [isCand_iff] at hp
  rcases hp with ⟨h1, h2, h3, h4⟩ | ⟨h1, h2, h3, h4⟩
  · rw [sides_of_odd_col p h2]
    unfold adjacent at hadj
    dsimp only
    rcases hadj with ⟨ha, hb | hb⟩ | ⟨ha, hb | hb⟩
    · right; rw [Prod.ext_iff]; constructor <;> dsimp only <;> omega
    · left; rw [Prod.ext_iff]; constructor <;> dsimp only <;> omega
    · omega
    · omega
  · rw [sides_of_even_col p h2]
    unfold adjacent at hadj
    dsimp only
    rcases hadj with ⟨ha, hb | hb⟩ | ⟨ha, hb | hb⟩
    · omega
    · omega
    · right; rw [Prod.ext_iff]; constructor <;> dsimp only <;> omega
    · left; rw [Prod.ext_iff]; constructor <;> dsimp only <;> omega

/-! ### Claim C1, part 2: invariants of the carving fold -/

theorem unionStep_skip (s : GenState) (p : Cell)
    (hc : s.label (sides p).1 = s.label (sides p).2) : unionStep s p = s := by
  unfold unionStep
  rw [if_pos (beq_iff_eq.mpr hc)]

theorem unionStep_merge (s : GenState) (p : Cell)
    (hc : s.label (sides p).1 ≠ s.label (sides p).2) :
    unionStep s p =
      { label := fun z => if s.label z == s.label (sides p).1
                          then s.label (sides p).2 else s.label z,
        carved := p :: s.carved,
        unions := s.unions + 1 } := by
  unfold unionStep
  rw [if_neg (by rw [beq_iff_eq]; exact hc)]

theorem foldl_unions_eq_carved_length (l : List Cell) (s : GenState)
    (hs : s.unions = s.carved.length) :
    (l.foldl unionStep s).unions = (l.foldl unionStep s).carved.length := by
  induction l generalizing s with
  | nil => exact hs
  | cons p t ih =>
      rw [List.foldl_cons]
      apply ih
      by_cases hc : s.label (sides p).1 = s.label (sides p).2
      · rw [unionStep_skip s p hc]; exact hs
      · rw [unionStep_merge s p hc]
        dsimp only
        rw [List.length_cons, hs]

theorem foldl_carved_mem (l : List Cell) (s : GenState) (c : Cell)
    (hc : c ∈ (l.foldl unionStep s).carved) : c ∈ s.carved ∨ c ∈ l := by
  induction l generalizing s with
  | nil => exact Or.inl hc
  | cons p t ih =>
      rw [List.foldl_cons] at hc
      rcases ih (unionStep s p) hc with hmem | hmem
      · by_cases hb : s.label (sides p).1 = s.label (sides p).2
        · rw [unionStep_skip s p hb] at hmem
          exact Or.inl hmem
        · rw [unionStep_merge s p hb] at hmem
          dsimp only at hmem
          rcases List.mem_cons.mp hmem with rfl | hmem
          · exact Or.inr (List.mem_cons_self _ _)
          · exact Or.inl hmem
      · exact Or.inr (List.mem_cons_of_mem p hmem)

theorem foldl_carved_nodup (l : List Cell) (s : GenState)
    (hl : l.Nodup) (hs : s.carved.Nodup) (hdisj : ∀ c ∈ l, c ∉ s.carved) :
    (l.foldl unionStep s).carved.Nodup := by
  induction l generalizing s with
  | nil => exact hs
  | cons p t ih =>
      rw [List.foldl_cons]
      rw [List.nodup_cons] at hl
      by_cases hb : s.label (sides p).1 = s.label (sides p).2
      · rw [unionStep_skip s p hb]
        exact ih _ hl.2 hs (fun c hct => hdisj c (List.mem_cons_of_mem p hct))
      · rw [unionStep_merge s p hb]
        apply ih _ hl.2
        · dsimp only
          rw [List.nodup_cons]
          exact ⟨hdisj p (List.mem_cons_self _ _), hs⟩
        · intro c hct
          dsimp only
          rw [List.mem_cons]
          rintro (rfl | hcs)
          · exact hl.1 hct
          · exact hdisj c (List.mem_cons_of_mem p hct) hcs

theorem unionStep_label_eq (s : GenState) (p : Cell) (a b : Cell)
    (hab : s.label a = s.label b) :
    (unionStep s p).label a = (unionStep s p).label b := by
  by_cases hc : s.label (sides p).1 = s.label (sides p).2
  · rw [unionStep_skip s p hc]; exact hab
  · rw [unionStep_merge s p hc]
    dsimp only
    rw [hab]

theorem foldl_label_eq (l : List Cell) (s : GenState) (a b : Cell)
    (hab : s.label a = s.label b) :
    (l.foldl unionStep s).label a = (l.foldl unionStep s).label b := by
  induction l generalizing s with
  | nil => exact hab
  | cons p t ih =>
      rw [List.foldl_cons]
      exact ih _ (unionStep_label_eq s p a b hab)

theorem unionStep_sides_label (s : GenState) (p : Cell) :
    (unionStep s p).label (sides p).1 = (unionStep s p).label (sides p).2 := by
  by_cases hc : s.label (sides p).1 = s.label (sides p).2
  · rw [unionStep_skip s p hc]; exact hc
  · rw [unionStep_merge s p hc]
    dsimp only
    rw [if_pos (beq_iff_eq.mpr rfl),
      if_neg (by rw [beq_iff_eq]; exact fun he => hc he.symm)]

theorem foldl_sides_label (l : List Cell) (s : GenState) (c : Cell) (hc : c ∈ l) :
    (l.foldl unionStep s).label (sides c).1 = (l.foldl unionStep s).label (sides c).2 := by
  induction l generalizing s with
  | nil => cases hc
  | cons p t ih =>
      rw [List.foldl_cons]
      rcases List.mem_cons.mp hc with rfl | hct
      · exact foldl_label_eq t _ _ _ (unionStep_sides_label s c)
      · exact ih _ hct

/-! ### Claim C1, part 3: reachability through path cells -/

theorem adjacent_symm (p q : Cell) (h : adjacent p q) : adjacent q p := by
  unfold adjacent at *
  rcases h with ⟨h1, h2⟩ | ⟨h1, h2⟩
  · exact Or.inl ⟨h1.symm, h2.symm⟩
  · exact Or.inr ⟨h1.symm, h2.symm⟩

theorem Reach.mem_left {S : Cell → Prop} {p q : Cell} (h : Reach S p q) : S p := by
  induction h with
  | refl hp => exact hp
  | tail _ _ _ ih => exact ih

theorem Reach.mem_right {S : Cell → Prop} {p q : Cell} (h : Reach S p q) : S q := by
  induction h with
  | refl hp => exact hp
  | tail _ _ hr _ => exact hr

theorem Reach.trans {S : Cell → Prop} {p q r : Cell}
    (h1 : Reach S p q) (h2 : Reach S q r) : Reach S p r := by
  induction h2 with
  | refl _ => exact h1
  | tail _ hadj hS ih => exact Reach.tail ih hadj hS

theorem Reach.symm {S : Cell → Prop} {p q : Cell} (h : Reach S p q) : Reach S q p := by
  induction h with
  | refl hp => exact Reach.refl _ hp
  | tail h1 hadj hS ih =>
      exact Reach.trans
        (Reach.tail (Reach.refl _ hS) (adjacent_symm _ _ hadj) h1.mem_right) ih

theorem Reach.mono {S T : Cell → Prop} (hST : ∀ x, S x → T x) {p q : Cell}
    (h : Reach S p q) : Reach T p q := by
  induction h with
  | refl hp => exact Reach.refl _ (hST _ hp)
  | tail _ hadj hS ih => exact Reach.tail ih hadj (hST _ hS)

theorem mem_roomFinset (h w : Nat) (p : Cell) :
    p ∈ roomFinset h w ↔ isRoom p = true ∧ p.1 < h ∧ p.2 < w := by
  unfold roomFinset roomList
  rw [List.mem_toFinset, List.mem_filter, mem_allCells]
  tauto

theorem initState_inv (h w : Nat) : LabelReachInv h w initState := by
  intro a b ha h1 h2 _ _ _ hab
  have hab' : a = b := hab
  subst hab'
  exact Reach.refl a (Or.inl ⟨ha, h1, h2⟩)

theorem unionStep_inv (h w : Nat) (s : GenState) (p : Cell)
    (hp : isCand h w p = true) (hinv : LabelReachInv h w s) :
    LabelReachInv h w (unionStep s p) := by
  by_cases hc : s.label (sides p).1 = s.label (sides p).2
  · rw [unionStep_skip s p hc]; exact hinv
  · rw [unionStep_merge s p hc]
    intro a b ha ha1 ha2 hb hb1 hb2 hab
    dsimp only at hab ⊢
    have hmono : ∀ x, pathSet h w s.carved x → pathSet h w (p :: s.carved) x := by
      intro x hx
      rcases hx with hx | hx
      · exact Or.inl hx
      · exact Or.inr (List.mem_cons_of_mem p hx)
    obtain ⟨hA, hB, hA1, hA2, hB1, hB2, hadjA, hadjB, hABne⟩ := cand_sides h w p hp
    have hAB : Reach (pathSet h w (p :: s.carved)) (sides p).1 (sides p).2 := by
      refine Reach.tail (Reach.tail (Reach.refl _ (Or.inl ⟨hA, hA1, hA2⟩))
        (adjacent_symm _ _ hadjA) (Or.inr (List.mem_cons_self _ _))) hadjB
        (Or.inl ⟨hB, hB1, hB2⟩)
    by_cases haA : s.label a = s.label (sides p).1
    · rw [if_pos (beq_iff_eq.mpr haA)] at hab
      by_cases hbA : s.label b = s.label (sides p).1
      · rw [if_pos (beq_iff_eq.mpr hbA)] at hab
        exact (hinv a b ha ha1 ha2 hb hb1 hb2 (haA.trans hbA.symm)).mono hmono
      · rw [if_neg (by rw [beq_iff_eq]; exact hbA)] at hab
        have r1 : Reach (pathSet h w s.carved) a (sides p).1 :=
          hinv a _ ha ha1 ha2 hA hA1 hA2 haA
        have r2 : Reach (pathSet h w s.carved) (sides p).2 b :=
          hinv _ b hB hB1 hB2 hb hb1 hb2 hab
        exact ((Reach.mono hmono r1).trans hAB).trans (Reach.mono hmono r2)
    · rw [if_neg (by rw [beq_iff_eq]; exact haA)] at hab
      by_cases hbA : s.label b = s.label (sides p).1
      · rw [if_pos (beq_iff_eq.mpr hbA)] at hab
        have r1 : Reach (pathSet h w s.carved) a (sides p).2 :=
          hinv a _ ha ha1 ha2 hB hB1 hB2 hab
        have r2 : Reach (pathSet h w s.carved) (sides p).1 b :=
          hinv _ b hA hA1 hA2 hb hb1 hb2 hbA.symm
        exact ((Reach.mono hmono r1).trans hAB.symm).trans (Reach.mono hmono r2)
      · rw [if_neg (by rw [beq_iff_eq]; exact hbA)] at hab
        exact (hinv a b ha ha1 ha2 hb hb1 hb2 hab).mono hmono

theorem foldl_inv (h w : Nat) (l : List Cell) (s : GenState)
    (hl : ∀ c ∈ l, isCand h w c = true) (hinv : LabelReachInv h w s) :
    LabelReachInv h w (l.foldl unionStep s) := by
  induction l generalizing s with
  | nil => exact hinv
  | cons p t ih =>
      rw [List.foldl_cons]
      exact ih _ (fun c hc => hl c (List.mem_cons_of_mem p hc))
        (unionStep_inv h w s p (hl p (List.mem_cons_self p t)) hinv)

/-! ### Claim C1, part 4: counting successful unions -/

/-- A successful union merges two label classes: the image of the labelling
over the rooms shrinks by exactly one. -/
theorem image_label_merge_card (S : Finset Cell) (f : Cell → Cell) (A B : Cell)
    (hA : A ∈ S) (hB : B ∈ S) (hne : f A ≠ f B) :
    (S.image (fun z => if f z == f A then f B else f z)).card + 1
      = (S.image f).card := by
  have himg : S.image (fun z => if f z == f A then f B else f z)
      = (S.image f).erase (f A) := by
    ext y
    simp only [Finset.mem_image, Finset.mem_erase]
    constructor
    · rintro ⟨z, hz, hzy⟩
      by_cases hzA : f z = f A
      · rw [if_pos (beq_iff_eq.mpr hzA)] at hzy
        subst hzy
        exact ⟨fun he => hne he.symm, B, hB, rfl⟩
      · rw [if_neg (by rw [beq_iff_eq]; exact hzA)] at hzy
        subst hzy
        exact ⟨hzA, z, hz, rfl⟩
    · rintro ⟨hyA, z, hz, rfl⟩
      refine ⟨z, hz, ?_⟩
      rw [if_neg (by rw [beq_iff_eq]; exact hyA)]
  have hpos : 0 < (S.image f).card :=
    Finset.card_pos.mpr ⟨f A, Finset.mem_image_of_mem f hA⟩
  have hmem : f A ∈ S.image f := Finset.mem_image_of_mem f hA
  rw [himg, Finset.card_erase_of_mem hmem]
  omega

/-- Through the whole fold, (number of label classes) + (number of carved
walls) is conserved. -/
theorem foldl_image_card (h w : Nat) (l : List Cell) (s : GenState)
    (hl : ∀ c ∈ l, isCand h w c = true) :
    ((roomFinset h w).image (l.foldl unionStep s).label).card
      + (l.foldl unionStep s).carved.length
    = ((roomFinset h w).image s.label).card + s.carved.length := by
  induction l generalizing s with
  | nil => rfl
  | cons p t ih =>
      rw [List.foldl_cons]
      rw [ih _ (fun c hc => hl c (List.mem_cons_of_mem p hc))]
      by_cases hc : s.label (sides p).1 = s.label (sides p).2
      · rw [unionStep_skip s p hc]
      · rw [unionStep_merge s p hc]
        dsimp only
        obtain ⟨hA, hB, hA1, hA2, hB1, hB2, -, -, -⟩ :=
          cand_sides h w p (hl p (List.mem_cons_self p t))
        have hAmem : (sides p).1 ∈ roomFinset h w :=
          (mem_roomFinset h w _).mpr ⟨hA, hA1, hA2⟩
        have hBmem : (sides p).2 ∈ roomFinset h w :=
          (mem_roomFinset h w _).mpr ⟨hB, hB1, hB2⟩
        have := image_label_merge_card (roomFinset h w) s.label
          (sides p).1 (sides p).2 hAmem hBmem hc
        rw [List.length_cons]
        omega

/-- When every candidate of the grid carries equally labelled sides, every
room has the same label as the room `(0, 0)` (the room grid is connected). -/
theorem rooms_label_const (h w : Nat) (F : GenState)
    (hadj : ∀ c, isCand h w c = true → F.label (sides c).1 = F.label (sides c).2)
    (p : Cell) (hp : isRoom p = true) (h1 : p.1 < h) (h2 : p.2 < w) :
    F.label p = F.label (0, 0) := by
  generalize hn : p.1 + p.2 = n
  induction n using Nat.strong_induction_on generalizing p with
  | _ n IH =>
      subst hn
      rcases p with ⟨r, c⟩
      rw [isRoom_iff] at hp
      dsimp only at hp h1 h2 ⊢
      by_cases hc0 : c = 0
      · subst hc0
        by_cases hr0 : r = 0
        · subst hr0; rfl
        · have hr2 : 2 ≤ r := by omega
          have hcand : isCand h w (r - 1, 0) = true := by
            rw [isCand_iff]
            right
            constructor
            · omega
            · exact ⟨by omega, by omega, by omega⟩
          have hstep := hadj _ hcand
          rw [sides_of_even_col (r - 1, 0) (by omega)] at hstep
          dsimp only at hstep
          have hr1 : r - 1 - 1 = r - 2 := by omega
          have hr2' : r - 1 + 1 = r := by omega
          rw [hr1, hr2'] at hstep
          rw [← hstep]
          exact IH (r - 2 + 0) (by omega) (r - 2, 0)
            (by rw [isRoom_iff]; dsimp only; omega) (by omega) (by omega) rfl
      · have hc2 : 2 ≤ c := by omega
        have hcand : isCand h w (r, c - 1) = true := by
          rw [isCand_iff]
          left
          exact ⟨by omega, by omega, by omega, by omega⟩
        have hstep := hadj _ hcand
        rw [sides_of_odd_col (r, c - 1) (by omega)] at hstep
        dsimp only at hstep
        have hcl : c - 1 - 1 = c - 2 := by omega
        have hcr : c - 1 + 1 = c := by omega
        rw [hcl, hcr] at hstep
        rw [← hstep]
        exact IH (r + (c - 2)) (by omega) (r, c - 2)
          (by rw [isRoom_iff]; dsimp only; omega) (by omega) (by omega) rfl

/-! ### Claim C1, part 5: the generated maze is connected -/

theorem carved_isCand (h w : Nat) (order : List Cell)
    (hperm : order.Perm (candList h w)) :
    ∀ c ∈ (runKruskal order).carved, isCand h w c = true := by
  intro c hc
  unfold runKruskal at hc
  rcases foldl_carved_mem order initState c hc with hmem | hmem
  · exact absurd hmem (List.not_mem_nil c)
  · exact (mem_candList h w c).mp (hperm.mem_iff.mp hmem)

theorem carved_nodup (h w : Nat) (order : List Cell)
    (hperm : order.Perm (candList h w)) : (runKruskal order).carved.Nodup := by
  unfold runKruskal
  exact foldl_carved_nodup order initState
    (hperm.nodup_iff.mpr (candList_nodup h w)) List.nodup_nil
    (fun c _ => List.not_mem_nil c)

theorem final_sides_label (h w : Nat) (order : List Cell)
    (hperm : order.Perm (candList h w)) :
    ∀ c, isCand h w c = true →
      (runKruskal order).label (sides c).1 = (runKruskal order).label (sides c).2 :=
  fun c hc => foldl_sides_label order initState c
    (hperm.mem_iff.mpr ((mem_candList h w c).mpr hc))

theorem final_inv (h w : Nat) (order : List Cell)
    (hperm : order.Perm (candList h w)) : LabelReachInv h w (runKruskal order) :=
  foldl_inv h w order initState
    (fun c hc => (mem_candList h w c).mp (hperm.mem_iff.mp hc)) (initState_inv h w)

/-- Connectivity: any two passable cells of the generated maze are joined by
a chain of 4-adjacent passable cells. -/
theorem kruskal_connected (h w : Nat) (order : List Cell)
    (hperm : order.Perm (candList h w)) (p q : Cell)
    (hp : pathSet h w (runKruskal order).carved p)
    (hq : pathSet h w (runKruskal order).carved q) :
    Reach (pathSet h w (runKruskal order).carved) p q := by
  have hroom : ∀ a b : Cell, isRoom a = true → a.1 < h → a.2 < w →
      isRoom b = true → b.1 < h → b.2 < w →
      Reach (pathSet h w (runKruskal order).carved) a b := by
    intro a b ha ha1 ha2 hb hb1 hb2
    apply final_inv h w order hperm a b ha ha1 ha2 hb hb1 hb2
    have hca := rooms_label_const h w (runKruskal order)
      (final_sides_label h w order hperm) a ha ha1 ha2
    have hcb := rooms_label_const h w (runKruskal order)
      (final_sides_label h w order hperm) b hb hb1 hb2
    exact hca.trans hcb.symm
  have hstep : ∀ x, pathSet h w (runKruskal order).carved x →
      ∃ a : Cell, isRoom a = true ∧ a.1 < h ∧ a.2 < w ∧
        Reach (pathSet h w (runKruskal order).carved) x a := by
    intro x hx
    rcases hx with ⟨hx1, hx2, hx3⟩ | hx
    · exact ⟨x, hx1, hx2, hx3, Reach.refl x (Or.inl ⟨hx1, hx2, hx3⟩)⟩
    · have hcand := carved_isCand h w order hperm x hx
      obtain ⟨hA, hB, hA1, hA2, -, -, hadjA, -, -⟩ := cand_sides h w x hcand
      exact ⟨(sides x).1, hA, hA1, hA2,
        Reach.tail (Reach.refl x (Or.inr hx)) hadjA (Or.inl ⟨hA, hA1, hA2⟩)⟩
  obtain ⟨a, ha, ha1, ha2, hra⟩ := hstep p hp
  obtain ⟨b, hb, hb1, hb2, hrb⟩ := hstep q hq
  exact (hra.trans (hroom a b ha ha1 ha2 hb hb1 hb2)).trans hrb.symm

/-! ### Claim C1, part 6: exactly rooms-minus-one successful unions -/

theorem unions_eq_carved_length (order : List Cell) :
    (runKruskal order).unions = (runKruskal order).carved.length :=
  foldl_unions_eq_carved_length order initState rfl

theorem carved_length_eq (h w : Nat) (order : List Cell)
    (hh : 1 ≤ h) (hw : 1 ≤ w) (hperm : order.Perm (candList h w)) :
    (runKruskal order).carved.length + 1 = (roomFinset h w).card := by
  have hfold := foldl_image_card h w order initState
    (fun c hc => (mem_candList h w c).mp (hperm.mem_iff.mp hc))
  have hid : (roomFinset h w).image initState.label = roomFinset h w :=
    Finset.image_id
  rw [hid] at hfold
  have himg : (roomFinset h w).image (runKruskal order).label
      = {(runKruskal order).label (0, 0)} := by
    apply Finset.eq_singleton_iff_unique_mem.mpr
    constructor
    · exact Finset.mem_image_of_mem _
        ((mem_roomFinset h w (0, 0)).mpr ⟨by rw [isRoom_iff]; exact ⟨rfl, rfl⟩, hh, hw⟩)
    · intro y hy
      rw [Finset.mem_image] at hy
      obtain ⟨z, hz, rfl⟩ := hy
      rw [mem_roomFinset] at hz
      exact rooms_label_const h w (runKruskal order)
        (final_sides_label h w order hperm) z hz.1 hz.2.1 hz.2.2
  unfold runKruskal at himg
  rw [himg, Finset.card_singleton] at hfold
  have h0 : initState.carved.length = 0 := rfl
  rw [h0] at hfold
  unfold runKruskal
  omega

/-! ### Claim C1, part 7: counting the path cells of the grid -/

theorem length_filter_or (l : List Cell) (f g : Cell → Bool)
    (hdisj : ∀ x ∈ l, ¬(f x = true ∧ g x = true)) :
    (l.filter (fun x => f x || g x)).length
      = (l.filter f).length + (l.filter g).length := by
  induction l with
  | nil => rfl
  | cons a t ih =>
      have hrest := ih (fun x hx => hdisj x (List.mem_cons_of_mem a hx))
      rcases hfa : f a with _ | _ <;> rcases hga : g a with _ | _
      · simp only [List.filter_cons, hfa, hga, Bool.or_self, Bool.false_eq_true,
          if_false]
        exact hrest
      · simp only [List.filter_cons, hfa, hga, Bool.false_or, if_true,
          Bool.false_eq_true, if_false, List.length_cons]
        omega
      · simp only [List.filter_cons, hfa, hga, Bool.or_false, if_true,
          Bool.false_eq_true, if_false, List.length_cons]
        omega
      · exact absurd ⟨hfa, hga⟩ (hdisj a (List.mem_cons_self a t))

theorem length_filter_contains (l s : List Cell) (hl : l.Nodup) (hs : s.Nodup)
    (hsub : ∀ x ∈ s, x ∈ l) :
    (l.filter (fun x => s.contains x)).length = s.length := by
  have h1 : (l.filter (fun x => s.contains x)).Nodup := hl.filter _
  have h2 : (l.filter (fun x => s.contains x)).toFinset = s.toFinset := by
    ext x
    rw [List.mem_toFinset, List.mem_toFinset, List.mem_filter]
    constructor
    · rintro ⟨-, hx⟩
      exact List.elem_iff.mp hx
    · intro hx
      exact ⟨hsub x hx, List.elem_iff.mpr hx⟩
  have hcard := congrArg Finset.card h2
  rw [List.toFinset_card_of_nodup h1, List.toFinset_card_of_nodup hs] at hcard
  exact hcard

theorem carved_mem_allCells (h w : Nat) (order : List Cell)
    (hperm : order.Perm (candList h w)) :
    ∀ c ∈ (runKruskal order).carved, c ∈ allCells h w := by
  intro c hc
  have := carved_isCand h w order hperm c hc
  rw [isCand_iff] at this
  rw [mem_allCells]
  omega

theorem pathCells_length (h w : Nat) (order : List Cell)
    (hperm : order.Perm (candList h w)) :
    (pathCells h w order).length
      = (roomList h w).length + (runKruskal order).carved.length := by
  unfold pathCells pathB
  rw [length_filter_or (allCells h w) isRoom
    (fun p => (runKruskal order).carved.contains p) ?_]
  · congr 1
    exact length_filter_contains (allCells h w) _ (allCells_nodup h w)
      (carved_nodup h w order hperm) (carved_mem_allCells h w order hperm)
  · rintro x hx ⟨hr, hcont⟩
    have hcand := carved_isCand h w order hperm x (List.elem_iff.mp hcont)
    have h1 := room_sum_even x hr
    have h2 := cand_sum_odd h w x hcand
    omega

theorem kruskalGrid_flatten (h w : Nat) (order : List Cell) :
    (kruskalGrid h w order).flatten
      = (allCells h w).map (fun p => if pathB order p then 1 else 0) := by
  unfold kruskalGrid allCells pathB
  rw [← List.flatMap_def, List.map_flatMap]
  congr 1
  funext r
  rw [List.map_map]
  rfl

theorem grid1Count_kruskalGrid (h w : Nat) (order : List Cell) :
    grid1Count (kruskalGrid h w order) = (pathCells h w order).length := by
  unfold grid1Count
  rw [kruskalGrid_flatten]
  unfold pathCells
  rw [List.count_eq_countP, List.countP_map,
    ← List.countP_eq_length_filter]
  apply List.countP_congr
  intro x _
  dsimp only [Function.comp]
  rcases hb : pathB order x with _ | _ <;> simp

/-! ### Claim C1, part 8: the path-adjacency graph has #cells - 1 edges -/

theorem mem_pathFinset (h w : Nat) (order : List Cell) (p : Cell) :
    p ∈ pathFinset h w order ↔ p ∈ allCells h w ∧ pathB order p = true := by
  unfold pathFinset pathCells
  rw [List.mem_toFinset, List.mem_filter]

theorem pathFinset_iff_pathSet (h w : Nat) (order : List Cell)
    (hperm : order.Perm (candList h w)) (p : Cell) :
    p ∈ pathFinset h w order ↔ pathSet h w (runKruskal order).carved p := by
  rw [mem_pathFinset, mem_allCells]
  unfold pathSet pathB
  constructor
  · rintro ⟨⟨h1, h2⟩, hb⟩
    rw [Bool.or_eq_true] at hb
    rcases hb with hr | hcont
    · exact Or.inl ⟨hr, h1, h2⟩
    · exact Or.inr (List.elem_iff.mp hcont)
  · rintro (⟨hr, h1, h2⟩ | hc)
    · exact ⟨⟨h1, h2⟩, by rw [Bool.or_eq_true]; exact Or.inl hr⟩
    · have hb := carved_mem_allCells h w order hperm p hc
      rw [mem_allCells] at hb
      exact ⟨hb, by rw [Bool.or_eq_true]; exact Or.inr (List.elem_iff.mpr hc)⟩

theorem pathCells_nodup (h w : Nat) (order : List Cell) :
    (pathCells h w order).Nodup := (allCells_nodup h w).filter _

theorem roomList_nodup (h w : Nat) : (roomList h w).Nodup :=
  (allCells_nodup h w).filter _

theorem length_filter_eq_card_filter (l : List Cell) (hl : l.Nodup)
    (P : Cell → Prop) [DecidablePred P] :
    (l.filter (fun x => decide (P x))).length = (l.toFinset.filter P).card := by
  rw [← List.toFinset_card_of_nodup (hl.filter _)]
  congr 1
  ext x
  rw [List.mem_toFinset, List.mem_filter, Finset.mem_filter, List.mem_toFinset]
  simp

theorem sum_map_eq_sum_toFinset (l : List Cell) (hl : l.Nodup) (f : Cell → Nat) :
    (l.map f).sum = ∑ p ∈ l.toFinset, f p := by
  induction l with
  | nil => rfl
  | cons a t ih =>
      rw [List.nodup_cons] at hl
      rw [List.map_cons, List.sum_cons, List.toFinset_cons,
        Finset.sum_insert (by rw [List.mem_toFinset]; exact hl.1), ih hl.2]

theorem adjPairCount_eq_sum (h w : Nat) (order : List Cell) :
    adjPairCount h w order
      = ∑ p ∈ pathFinset h w order,
          ((pathFinset h w order).filter (fun q => adjacent p q)).card := by
  unfold adjPairCount
  rw [sum_map_eq_sum_toFinset _ (pathCells_nodup h w order)]
  apply Finset.sum_congr rfl
  intro p _
  exact length_filter_eq_card_filter _ (pathCells_nodup h w order) _

/-- The passable neighbours of a carved wall are exactly its two side
rooms. -/
theorem pathFinset_filter_adj_carved (h w : Nat) (order : List Cell)
    (hperm : order.Perm (candList h w)) (p : Cell)
    (hp : p ∈ (runKruskal order).carved) :
    (pathFinset h w order).filter (fun q => adjacent p q)
      = {(sides p).1, (sides p).2} := by
  have hcand := carved_isCand h w order hperm p hp
  obtain ⟨hA, hB, hA1, hA2, hB1, hB2, hadjA, hadjB, hABne⟩ := cand_sides h w p hcand
  ext q
  rw [Finset.mem_filter, pathFinset_iff_pathSet h w order hperm,
    Finset.mem_insert, Finset.mem_singleton]
  constructor
  · rintro ⟨hq, hadj⟩
    rcases hq with ⟨hqr, -, -⟩ | hqc
    · exact room_adjacent_cand h w p q hcand hqr hadj
    · exact absurd hadj (cand_not_adjacent_cand h w p q hcand
        (carved_isCand h w order hperm q hqc))
  · rintro (rfl | rfl)
    · exact ⟨Or.inl ⟨hA, hA1, hA2⟩, hadjA⟩
    · exact ⟨Or.inl ⟨hB, hB1, hB2⟩, hadjB⟩

/-- The passable neighbours of a room are exactly its carved neighbours. -/
theorem pathFinset_filter_adj_room (h w : Nat) (order : List Cell)
    (hperm : order.Perm (candList h w)) (p : Cell) (hpr : isRoom p = true) :
    (pathFinset h w order).filter (fun q => adjacent p q)
      = ((runKruskal order).carved.toFinset).filter (fun q => adjacent p q) := by
  ext q
  rw [Finset.mem_filter, Finset.mem_filter, List.mem_toFinset,
    pathFinset_iff_pathSet h w order hperm]
  constructor
  · rintro ⟨hq, hadj⟩
    refine ⟨?_, hadj⟩
    rcases hq with ⟨hqr, -, -⟩ | hqc
    · exact absurd hadj (room_not_adjacent_room p q hpr hqr)
    · exact hqc
  · rintro ⟨hqc, hadj⟩
    exact ⟨Or.inr hqc, hadj⟩

/-- The rooms adjacent to a carved wall are exactly its two sides. -/
theorem roomFinset_filter_adj_carved (h w : Nat) (order : List Cell)
    (hperm : order.Perm (candList h w)) (q : Cell)
    (hq : q ∈ (runKruskal order).carved) :
    (roomFinset h w).filter (fun p => adjacent p q)
      = {(sides q).1, (sides q).2} := by
  have hcand := carved_isCand h w order hperm q hq
  obtain ⟨hA, hB, hA1, hA2, hB1, hB2, hadjA, hadjB, hABne⟩ := cand_sides h w q hcand
  ext p
  rw [Finset.mem_filter, mem_roomFinset, Finset.mem_insert, Finset.mem_singleton]
  constructor
  · rintro ⟨⟨hpr, -, -⟩, hadj⟩
    exact room_adjacent_cand h w q p hcand hpr (adjacent_symm p q hadj)
  · rintro (rfl | rfl)
    · exact ⟨⟨hA, hA1, hA2⟩, adjacent_symm _ _ hadjA⟩
    · exact ⟨⟨hB, hB1, hB2⟩, adjacent_symm _ _ hadjB⟩

theorem pathFinset_eq_union (h w : Nat) (order : List Cell)
    (hperm : order.Perm (candList h w)) :
    pathFinset h w order = roomFinset h w ∪ (runKruskal order).carved.toFinset := by
  ext p
  rw [pathFinset_iff_pathSet h w order hperm, Finset.mem_union, mem_roomFinset,
    List.mem_toFinset]
  unfold pathSet
  tauto

theorem room_carved_disjoint (h w : Nat) (order : List Cell)
    (hperm : order.Perm (candList h w)) :
    Disjoint (roomFinset h w) ((runKruskal order).carved.toFinset) := by
  rw [Finset.disjoint_left]
  intro p hp hpc
  rw [mem_roomFinset] at hp
  have hcand := carved_isCand h w order hperm p (List.mem_toFinset.mp hpc)
  have h1 := room_sum_even p hp.1
  have h2 := cand_sum_odd h w p hcand
  omega

theorem sum_room_carved_adj (h w : Nat) (order : List Cell) :
    ∑ p ∈ roomFinset h w,
        (((runKruskal order).carved.toFinset).filter (fun q => adjacent p q)).card
      = ∑ q ∈ (runKruskal order).carved.toFinset,
          ((roomFinset h w).filter (fun p => adjacent p q)).card := by
  simp only [Finset.card_filter]
  exact Finset.sum_comm

/-- The ordered count of adjacent passable pairs is `2 * (#path cells - 1)`:
the path-adjacency graph has exactly one edge fewer than it has vertices. -/
theorem adjPairCount_eq (h w : Nat) (order : List Cell)
    (hh : 1 ≤ h) (hw : 1 ≤ w) (hperm : order.Perm (candList h w)) :
    adjPairCount h w order = 2 * ((pathCells h w order).length - 1) := by
  have hdisj := room_carved_disjoint h w order hperm
  rw [adjPairCount_eq_sum]
  have hsplit : ∀ f : Cell → Nat,
      ∑ p ∈ pathFinset h w order, f p
        = ∑ p ∈ roomFinset h w, f p
          + ∑ p ∈ (runKruskal order).carved.toFinset, f p := by
    intro f
    rw [pathFinset_eq_union h w order hperm, Finset.sum_union hdisj]
  rw [hsplit]
  have hsum_carved :
      ∑ p ∈ (runKruskal order).carved.toFinset,
        ((pathFinset h w order).filter (fun q => adjacent p q)).card
      = 2 * (runKruskal order).carved.toFinset.card := by
    have h1 : ∀ p ∈ (runKruskal order).carved.toFinset,
        ((pathFinset h w order).filter (fun q => adjacent p q)).card = 2 := by
      intro p hp
      rw [pathFinset_filter_adj_carved h w order hperm p (List.mem_toFinset.mp hp)]
      exact Finset.card_pair
        (cand_sides h w p (carved_isCand h w order hperm p
          (List.mem_toFinset.mp hp))).2.2.2.2.2.2.2.2
    rw [Finset.sum_congr rfl h1, Finset.sum_const, smul_eq_mul, Nat.mul_comm]
  have hsum_rooms :
      ∑ p ∈ roomFinset h w,
        ((pathFinset h w order).filter (fun q => adjacent p q)).card
      = 2 * (runKruskal order).carved.toFinset.card := by
    have h1 : ∀ p ∈ roomFinset h w,
        ((pathFinset h w order).filter (fun q => adjacent p q)).card
          = (((runKruskal order).carved.toFinset).filter (fun q => adjacent p q)).card := by
      intro p hp
      rw [pathFinset_filter_adj_room h w order hperm p
        ((mem_roomFinset h w p).mp hp).1]
    have h2 : ∀ q ∈ (runKruskal order).carved.toFinset,
        ((roomFinset h w).filter (fun p => adjacent p q)).card = 2 := by
      intro q hq
      rw [roomFinset_filter_adj_carved h w order hperm q (List.mem_toFinset.mp hq)]
      exact Finset.card_pair
        (cand_sides h w q (carved_isCand h w order hperm q
          (List.mem_toFinset.mp hq))).2.2.2.2.2.2.2.2
    rw [Finset.sum_congr rfl h1, sum_room_carved_adj h w order,
      Finset.sum_congr rfl h2, Finset.sum_const, smul_eq_mul, Nat.mul_comm]
  rw [hsum_carved, hsum_rooms]
  have hC : (runKruskal order).carved.toFinset.card
      = (runKruskal order).carved.length :=
    List.toFinset_card_of_nodup (carved_nodup h w order hperm)
  have hcl := carved_length_eq h w order hh hw hperm
  have hpl := pathCells_length h w order hperm
  have hR : (roomList h w).length = (roomFinset h w).card :=
    (List.toFinset_card_of_nodup (roomList_nodup h w)).symm
  omega


/-! ### Claim C1, part 9: acyclicity — no route around a carved wall -/

theorem adjacent_irrefl (p : Cell) : ¬ adjacent p p := by
  unfold adjacent
  omega

/-- Splitting connectivity at a degree-two cell: any chain through `S ∪ {p}`
between cells other than `p`, where the only `S`-neighbours of `p` are `A`
and `B`, either avoids `p` or decomposes into `S`-chains attached at the two
gates `A`, `B`. -/
theorem reach_gate_aux {S : Cell → Prop} {p A B : Cell}
    (hgate : ∀ q, S q → adjacent p q → q = A ∨ q = B)
    {x : Cell} (hx : x ≠ p) (hxS : S x) {y : Cell}
    (hr : Reach (fun z => S z ∨ z = p) x y) :
    (y ≠ p → (Reach S x y ∨ ((Reach S x A ∨ Reach S x B) ∧ (Reach S A y ∨ Reach S B y))))
    ∧ (y = p → (Reach S x A ∨ Reach S x B)) := by
  induction hr with
  | refl hy =>
      refine ⟨fun _ => Or.inl (Reach.refl x hxS), fun hxp => absurd hxp hx⟩
  | tail h1 hadj hS ih =>
      rename_i q r
      constructor
      · intro hrp
        have hSr : S r := by
          rcases hS with hS | hS
          · exact hS
          · exact absurd hS hrp
        by_cases hqp : q = p
        · subst hqp
          have hrAB : r = A ∨ r = B := hgate r hSr hadj
          rcases ih.2 rfl with hxa | hxa
          · refine Or.inr ⟨Or.inl hxa, ?_⟩
            rcases hrAB with rfl | rfl
            · exact Or.inl (Reach.refl r hSr)
            · exact Or.inr (Reach.refl r hSr)
          · refine Or.inr ⟨Or.inr hxa, ?_⟩
            rcases hrAB with rfl | rfl
            · exact Or.inl (Reach.refl r hSr)
            · exact Or.inr (Reach.refl r hSr)
        · rcases ih.1 hqp with hxy | ⟨hxg, hgy⟩
          · exact Or.inl (Reach.tail hxy hadj hSr)
          · refine Or.inr ⟨hxg, ?_⟩
            rcases hgy with hgy | hgy
            · exact Or.inl (Reach.tail hgy hadj hSr)
            · exact Or.inr (Reach.tail hgy hadj hSr)
      · intro hrp
        have hqp : q ≠ p := by
          intro hqp2
          rw [hqp2, hrp] at hadj
          exact adjacent_irrefl p hadj
        have hSq : S q := by
          rcases h1.mem_right with hq | hq
          · exact hq
          · exact absurd hq hqp
        have hqAB : q = A ∨ q = B := by
          apply hgate q hSq
          rw [← hrp]
          exact adjacent_symm _ _ hadj
        rcases ih.1 hqp with hxy | ⟨hxg, -⟩
        · rcases hqAB with rfl | rfl
          · exact Or.inl hxy
          · exact Or.inr hxy
        · exact hxg

/-- The instantiated gate lemma. -/
theorem reach_gate {S : Cell → Prop} {p A B : Cell}
    (hgate : ∀ q, S q → adjacent p q → q = A ∨ q = B)
    {x y : Cell} (hx : x ≠ p) (hxS : S x) (hy : y ≠ p)
    (hr : Reach (fun z => S z ∨ z = p) x y) :
    Reach S x y ∨
      ((Reach S x A ∨ Reach S x B) ∧ (Reach S A y ∨ Reach S B y)) :=
  (reach_gate_aux hgate hx hxS hr).1 hy

theorem pathSet_cons (h w : Nat) (p : Cell) (cv : List Cell) (z : Cell) :
    pathSet h w (p :: cv) z ↔ pathSet h w cv z ∨ z = p := by
  unfold pathSet
  rw [List.mem_cons]
  tauto

/-- A candidate wall is never itself a passable cell before it is carved. -/
theorem cand_not_pathSet (h w : Nat) (cv : List Cell) (p : Cell)
    (hp : isCand h w p = true) (hnp : p ∉ cv) : ¬ pathSet h w cv p := by
  rintro (⟨hr, -, -⟩ | hc)
  · have := room_sum_even p hr
    have := cand_sum_odd h w p hp
    omega
  · exact hnp hc

/-- In a state whose carved cells are candidates, the passable neighbours of
a candidate wall are exactly its two side rooms. -/
theorem pathSet_neighbors_of_cand (h w : Nat) (cv : List Cell)
    (hcv : ∀ c ∈ cv, isCand h w c = true) (p : Cell) (hp : isCand h w p = true)
    (q : Cell) (hq : pathSet h w cv q) (hadj : adjacent p q) :
    q = (sides p).1 ∨ q = (sides p).2 := by
  rcases hq with ⟨hqr, -, -⟩ | hqc
  · exact room_adjacent_cand h w p q hp hqr hadj
  · exact absurd hadj (cand_not_adjacent_cand h w p q hp (hcv q hqc))

/-- A room never equals a candidate wall (parity). -/
theorem room_ne_cand (h w : Nat) (a c : Cell)
    (ha : isRoom a = true) (hc : isCand h w c = true) : a ≠ c := by
  intro heq
  subst heq
  have := room_sum_even a ha
  have := cand_sum_odd h w a hc
  omega

theorem unionStep_carved_sub (s : GenState) (p c : Cell)
    (hc : c ∈ (unionStep s p).carved) : c = p ∨ c ∈ s.carved := by
  by_cases hb : s.label (sides p).1 = s.label (sides p).2
  · rw [unionStep_skip s p hb] at hc
    exact Or.inr hc
  · rw [unionStep_merge s p hb] at hc
    dsimp only at hc
    exact List.mem_cons.mp hc

theorem unionStep_carvedCands (h w : Nat) (s : GenState) (p : Cell)
    (hp : isCand h w p = true) (hcc : CarvedCands h w s) :
    CarvedCands h w (unionStep s p) := by
  intro c hc
  rcases unionStep_carved_sub s p c hc with rfl | hc
  · exact hp
  · exact hcc c hc

theorem unionStep_sidesInv (s : GenState) (p : Cell) (hsi : SidesInv s) :
    SidesInv (unionStep s p) := by
  intro c hc
  rcases unionStep_carved_sub s p c hc with rfl | hc
  · exact unionStep_sides_label s c
  · exact unionStep_label_eq s p _ _ (hsi c hc)

theorem unionStep_labelComplete (h w : Nat) (s : GenState) (p : Cell)
    (hp : isCand h w p = true) (_hnp : p ∉ s.carved)
    (hcc : CarvedCands h w s) (hci : LabelCompleteInv h w s) :
    LabelCompleteInv h w (unionStep s p) := by
  by_cases hb : s.label (sides p).1 = s.label (sides p).2
  · rw [unionStep_skip s p hb]
    exact hci
  · intro a b ha ha1 ha2 hb' hb1 hb2 hreach
    have hcarved : (unionStep s p).carved = p :: s.carved := by
      rw [unionStep_merge s p hb]
    rw [hcarved] at hreach
    have hreach' : Reach (fun z => pathSet h w s.carved z ∨ z = p) a b :=
      hreach.mono (fun x hx => (pathSet_cons h w p s.carved x).mp hx)
    obtain ⟨hAp, hBp, hAp1, hAp2, hBp1, hBp2, -, -, -⟩ := cand_sides h w p hp
    have hgate : ∀ q, pathSet h w s.carved q → adjacent p q →
        q = (sides p).1 ∨ q = (sides p).2 :=
      pathSet_neighbors_of_cand h w s.carved hcc p hp
    have hAB := unionStep_sides_label s p
    rcases reach_gate hgate (room_ne_cand h w a p ha hp) (Or.inl ⟨ha, ha1, ha2⟩)
        (room_ne_cand h w b p hb' hp) hreach' with hold | ⟨hag, hgb⟩
    · exact unionStep_label_eq s p a b (hci a b ha ha1 ha2 hb' hb1 hb2 hold)
    · have hagL : (unionStep s p).label a = (unionStep s p).label (sides p).1 := by
        rcases hag with hag | hag
        · exact unionStep_label_eq s p _ _ (hci a _ ha ha1 ha2 hAp hAp1 hAp2 hag)
        · exact (unionStep_label_eq s p _ _
            (hci a _ ha ha1 ha2 hBp hBp1 hBp2 hag)).trans hAB.symm
      have hgbL : (unionStep s p).label (sides p).1 = (unionStep s p).label b := by
        rcases hgb with hgb | hgb
        · exact unionStep_label_eq s p _ _ (hci _ b hAp hAp1 hAp2 hb' hb1 hb2 hgb)
        · exact hAB.trans (unionStep_label_eq s p _ _
            (hci _ b hBp hBp1 hBp2 hb' hb1 hb2 hgb))
      exact hagL.trans hgbL

theorem unionStep_noCycle (h w : Nat) (s : GenState) (p : Cell)
    (hp : isCand h w p = true) (hnp : p ∉ s.carved)
    (hcc : CarvedCands h w s) (hsi : SidesInv s)
    (hci : LabelCompleteInv h w s) (hnc : NoCycleInv h w s) :
    NoCycleInv h w (unionStep s p) := by
  by_cases hb : s.label (sides p).1 = s.label (sides p).2
  · rw [unionStep_skip s p hb]
    exact hnc
  · intro c hc hreach
    have hcarved : (unionStep s p).carved = p :: s.carved := by
      rw [unionStep_merge s p hb]
    rw [hcarved] at hc hreach
    rcases List.mem_cons.mp hc with rfl | hcold
    · have hset : ∀ x, (pathSet h w (c :: s.carved) x ∧ x ≠ c) →
          pathSet h w s.carved x := by
        rintro x ⟨hx1, hx2⟩
        rcases (pathSet_cons h w c s.carved x).mp hx1 with hx | hx
        · exact hx
        · exact absurd hx hx2
      obtain ⟨hA, hB, hA1, hA2, hB1, hB2, -, -, -⟩ := cand_sides h w c hp
      exact hb (hci _ _ hA hA1 hA2 hB hB1 hB2 (hreach.mono hset))
    · have hcnecand := hcc c hcold
      have hcne : c ≠ p := fun he => hnp (he ▸ hcold)
      have hset : ∀ x, (pathSet h w (p :: s.carved) x ∧ x ≠ c) →
          ((pathSet h w s.carved x ∧ x ≠ c) ∨ x = p) := by
        rintro x ⟨hx1, hx2⟩
        rcases (pathSet_cons h w p s.carved x).mp hx1 with hx | hx
        · exact Or.inl ⟨hx, hx2⟩
        · exact Or.inr hx
      have hreach' := hreach.mono hset
      obtain ⟨hAp, hBp, hAp1, hAp2, hBp1, hBp2, -, -, -⟩ := cand_sides h w p hp
      obtain ⟨hAc, hBc, hAc1, hAc2, hBc1, hBc2, -, -, -⟩ :=
        cand_sides h w c hcnecand
      have hgate : ∀ q, (pathSet h w s.carved q ∧ q ≠ c) → adjacent p q →
          q = (sides p).1 ∨ q = (sides p).2 :=
        fun q hq hadj => pathSet_neighbors_of_cand h w s.carved hcc p hp q hq.1 hadj
      have hxS : pathSet h w s.carved (sides c).1 ∧ (sides c).1 ≠ c :=
        ⟨Or.inl ⟨hAc, hAc1, hAc2⟩, room_ne_cand h w _ c hAc hcnecand⟩
      have hmono : ∀ x, (pathSet h w s.carved x ∧ x ≠ c) →
          pathSet h w s.carved x := fun x hx => hx.1
      rcases reach_gate hgate (room_ne_cand h w _ p hAc hp) hxS
          (room_ne_cand h w _ p hBc hp) hreach' with hold | ⟨hg1, hg2⟩
      · exact hnc c hcold hold
      · rcases hg1 with hg1 | hg1 <;> rcases hg2 with hg2 | hg2
        · exact hnc c hcold (hg1.trans hg2)
        · have e1 := hci _ _ hAc hAc1 hAc2 hAp hAp1 hAp2 (hg1.mono hmono)
          have e2 := hci _ _ hBp hBp1 hBp2 hBc hBc1 hBc2 (hg2.mono hmono)
          have e3 := hsi c hcold
          exact hb ((e1.symm.trans e3).trans e2.symm)
        · have e1 := hci _ _ hAc hAc1 hAc2 hBp hBp1 hBp2 (hg1.mono hmono)
          have e2 := hci _ _ hAp hAp1 hAp2 hBc hBc1 hBc2 (hg2.mono hmono)
          have e3 := hsi c hcold
          exact hb ((e2.trans e3.symm).trans e1)
        · exact hnc c hcold (hg1.trans hg2)

theorem unionStep_fullInv (h w : Nat) (s : GenState) (p : Cell)
    (hp : isCand h w p = true) (hnp : p ∉ s.carved) (hinv : FullInv h w s) :
    FullInv h w (unionStep s p) :=
  ⟨unionStep_carvedCands h w s p hp hinv.1,
   unionStep_sidesInv s p hinv.2.1,
   unionStep_labelComplete h w s p hp hnp hinv.1 hinv.2.2.1,
   unionStep_noCycle h w s p hp hnp hinv.1 hinv.2.1 hinv.2.2.1 hinv.2.2.2⟩

theorem foldl_fullInv (h w : Nat) (l : List Cell) (s : GenState)
    (hl : ∀ c ∈ l, isCand h w c = true) (hnodup : l.Nodup)
    (hdisj : ∀ c ∈ l, c ∉ s.carved) (hinv : FullInv h w s) :
    FullInv h w (l.foldl unionStep s) := by
  induction l generalizing s with
  | nil => exact hinv
  | cons p t ih =>
      rw [List.foldl_cons]
      rw [List.nodup_cons] at hnodup
      apply ih _ (fun c hc => hl c (List.mem_cons_of_mem p hc)) hnodup.2
      · intro c hct hcmem
        rcases unionStep_carved_sub s p c hcmem with rfl | hcs
        · exact hnodup.1 hct
        · exact hdisj c (List.mem_cons_of_mem p hct) hcs
      · exact unionStep_fullInv h w s p (hl p (List.mem_cons_self p t))
          (hdisj p (List.mem_cons_self p t)) hinv

theorem reach_rooms_only (h w : Nat) {a b : Cell}
    (hr : Reach (pathSet h w []) a b) : a = b := by
  induction hr with
  | refl _ => rfl
  | tail h1 hadj hS ih =>
      exfalso
      rcases h1.mem_right with ⟨hqr, -, -⟩ | hq
      · rcases hS with ⟨hrr, -, -⟩ | hS
        · exact room_not_adjacent_room _ _ hqr hrr hadj
        · exact List.not_mem_nil _ hS
      · exact List.not_mem_nil _ hq

theorem initState_fullInv (h w : Nat) : FullInv h w initState := by
  refine ⟨?_, ?_, ?_, ?_⟩
  · intro c hc
    exact absurd hc (List.not_mem_nil c)
  · intro c hc
    exact absurd hc (List.not_mem_nil c)
  · intro a b _ _ _ _ _ _ hreach
    rw [reach_rooms_only h w hreach]
  · intro c hc
    exact absurd hc (List.not_mem_nil c)

/-- No route around a carved wall in the final maze: removing a carved wall
cell disconnects its two side rooms. -/
theorem final_noCycle (h w : Nat) (order : List Cell)
    (hperm : order.Perm (candList h w)) : NoCycleInv h w (runKruskal order) :=
  (foldl_fullInv h w order initState
    (fun c hc => (mem_candList h w c).mp (hperm.mem_iff.mp hc))
    (hperm.nodup_iff.mpr (candList_nodup h w))
    (fun c _ => List.not_mem_nil c)
    (initState_fullInv h w)).2.2.2

/-! ### Claim C1, part 10: the path-adjacency graph is a tree -/

theorem reach_to_reachable_aux (h w : Nat) (order : List Cell)
    (hperm : order.Perm (candList h w)) {p q : Cell}
    (hr : Reach (pathSet h w (runKruskal order).carved) p q) :
    ∀ (hp : p ∈ pathFinset h w order) (hq : q ∈ pathFinset h w order),
      (pathGraph h w order).Reachable ⟨p, hp⟩ ⟨q, hq⟩ := by
  induction hr with
  | refl hS =>
      intro hp hq
      exact SimpleGraph.Reachable.refl _
  | tail h1 hadj hS ih =>
      intro hp hq
      have hmid : _ ∈ pathFinset h w order :=
        (pathFinset_iff_pathSet h w order hperm _).mpr h1.mem_right
      exact SimpleGraph.Reachable.trans (ih hp hmid)
        (SimpleGraph.Adj.reachable hadj)

theorem walk_avoid_to_reach (h w : Nat) (order : List Cell)
    (hperm : order.Perm (candList h w)) (c : Cell)
    {u v : {p : Cell // p ∈ pathFinset h w order}}
    (W : (pathGraph h w order).Walk u v)
    (hc : ∀ x ∈ W.support, x.1 ≠ c) :
    Reach (fun z => pathSet h w (runKruskal order).carved z ∧ z ≠ c) u.1 v.1 := by
  induction W with
  | nil =>
      rename_i a
      refine Reach.refl _ ⟨(pathFinset_iff_pathSet h w order hperm _).mp a.2, ?_⟩
      exact hc a (by rw [SimpleGraph.Walk.support_nil]; exact List.mem_singleton.mpr rfl)
  | cons hadj W' ih =>
      rename_i a b d
      have hstep : Reach (fun z => pathSet h w (runKruskal order).carved z ∧ z ≠ c)
          a.1 b.1 := by
        refine Reach.tail (Reach.refl _ ⟨(pathFinset_iff_pathSet h w order hperm _).mp a.2, ?_⟩)
          hadj ⟨(pathFinset_iff_pathSet h w order hperm _).mp b.2, ?_⟩
        · exact hc a (by rw [SimpleGraph.Walk.support_cons]; exact List.mem_cons_self _ _)
        · refine hc b (by
            rw [SimpleGraph.Walk.support_cons]
            exact List.mem_cons_of_mem _ W'.start_mem_support)
      refine hstep.trans (ih ?_)
      intro x hx
      exact hc x (by rw [SimpleGraph.Walk.support_cons]; exact List.mem_cons_of_mem _ hx)

theorem adj_one_wall (h w : Nat) (order : List Cell)
    (hperm : order.Perm (candList h w))
    (v u : {p : Cell // p ∈ pathFinset h w order})
    (hadj : (pathGraph h w order).Adj v u) :
    (isRoom v.1 = true ∧ u.1 ∈ (runKruskal order).carved)
    ∨ (v.1 ∈ (runKruskal order).carved ∧ isRoom u.1 = true) := by
  have hv := (pathFinset_iff_pathSet h w order hperm _).mp v.2
  have hu := (pathFinset_iff_pathSet h w order hperm _).mp u.2
  have hadj' : adjacent v.1 u.1 := hadj
  rcases hv with ⟨hvr, -, -⟩ | hvc <;> rcases hu with ⟨hur, -, -⟩ | huc
  · exact absurd hadj' (room_not_adjacent_room _ _ hvr hur)
  · exact Or.inl ⟨hvr, huc⟩
  · exact Or.inr ⟨hvc, hur⟩
  · exact absurd hadj' (cand_not_adjacent_cand h w _ _
      (carved_isCand h w order hperm _ hvc) (carved_isCand h w order hperm _ huc))

/-- There is no simple path from a carved wall to an adjacent room other
than the direct edge: the wall is a bridge. -/
theorem no_path_wall_to_room (h w : Nat) (order : List Cell)
    (hperm : order.Perm (candList h w))
    (u v : {p : Cell // p ∈ pathFinset h w order})
    (hu : u.1 ∈ (runKruskal order).carved)
    (hadjvu : adjacent u.1 v.1)
    (P : (pathGraph h w order).Walk u v) (hP : P.IsPath)
    (hE : s(u, v) ∉ P.edges) : False := by
  have hcand := carved_isCand h w order hperm u.1 hu
  have huv1 : u.1 ≠ v.1 := by
    intro heq
    rw [heq] at hadjvu
    exact adjacent_irrefl v.1 hadjvu
  cases P with
  | nil => exact huv1 rfl
  | cons hadj2 Q =>
      rename_i x
      have hx_path : pathSet h w (runKruskal order).carved x.1 :=
        (pathFinset_iff_pathSet h w order hperm _).mp x.2
      have hv_path : pathSet h w (runKruskal order).carved v.1 :=
        (pathFinset_iff_pathSet h w order hperm _).mp v.2
      have hx_side : x.1 = (sides u.1).1 ∨ x.1 = (sides u.1).2 :=
        pathSet_neighbors_of_cand h w _ (carved_isCand h w order hperm) u.1 hcand
          x.1 hx_path hadj2
      have hv_side : v.1 = (sides u.1).1 ∨ v.1 = (sides u.1).2 :=
        pathSet_neighbors_of_cand h w _ (carved_isCand h w order hperm) u.1 hcand
          v.1 hv_path hadjvu
      have hxv : x ≠ v := by
        rintro rfl
        apply hE
        rw [SimpleGraph.Walk.edges_cons]
        exact List.mem_cons_self _ _
      have hx1v1 : x.1 ≠ v.1 := fun he => hxv (Subtype.ext he)
      rw [SimpleGraph.Walk.cons_isPath_iff] at hP
      have hQu : ∀ y ∈ Q.support, y.1 ≠ u.1 := by
        intro y hy heq
        exact hP.2 (Subtype.ext heq ▸ hy)
      have hreach := walk_avoid_to_reach h w order hperm u.1 Q hQu
      have hnc := final_noCycle h w order hperm u.1 hu
      rcases hx_side with hx | hx <;> rcases hv_side with hv | hv
      · exact hx1v1 (hx.trans hv.symm)
      · apply hnc
        rw [hx, hv] at hreach
        exact hreach
      · apply hnc
        rw [hx, hv] at hreach
        exact hreach.symm
      · exact hx1v1 (hx.trans hv.symm)

/-- The path-adjacency graph of every generated maze is a tree. -/
theorem pathGraph_isTree (h w : Nat) (order : List Cell)
    (hh : 1 ≤ h) (hw : 1 ≤ w) (hperm : order.Perm (candList h w)) :
    (pathGraph h w order).IsTree := by
  have hmem0 : ((0, 0) : Cell) ∈ pathFinset h w order :=
    (pathFinset_iff_pathSet h w order hperm _).mpr
      (Or.inl ⟨by decide, hh, hw⟩)
  have hne : Nonempty {p : Cell // p ∈ pathFinset h w order} := ⟨⟨(0, 0), hmem0⟩⟩
  constructor
  · apply SimpleGraph.Connected.mk
    intro a b
    exact reach_to_reachable_aux h w order hperm
      (kruskal_connected h w order hperm a.1 b.1
        ((pathFinset_iff_pathSet h w order hperm _).mp a.2)
        ((pathFinset_iff_pathSet h w order hperm _).mp b.2)) a.2 b.2
  · rw [SimpleGraph.isAcyclic_iff_forall_adj_isBridge]
    intro v u hadj
    rw [SimpleGraph.isBridge_iff_adj_and_forall_walk_mem_edges]
    refine ⟨hadj, fun W => ?_⟩
    by_contra hW
    have hPpath := W.bypass_isPath
    have hPE : s(v, u) ∉ W.bypass.edges := fun hmem => hW (W.edges_bypass_subset hmem)
    rcases adj_one_wall h w order hperm v u hadj with ⟨hvr, huc⟩ | ⟨hvc, hur⟩
    · have hrev : s(u, v) ∉ W.bypass.reverse.edges := by
        intro hmem
        rw [SimpleGraph.Walk.edges_reverse, List.mem_reverse, Sym2.eq_swap] at hmem
        exact hPE hmem
      exact no_path_wall_to_room h w order hperm u v huc
        (adjacent_symm _ _ hadj) W.bypass.reverse hPpath.reverse hrev
    · exact no_path_wall_to_room h w order hperm v u hvc hadj W.bypass hPpath hPE

/-! ### Claim C1: the perfect-maze invariant -/

theorem gridAt_one_iff_pathSet (h w : Nat) (order : List Cell)
    (hperm : order.Perm (candList h w)) (p : Cell) :
    gridAt (kruskalGrid h w order) p = 1 ↔
      pathSet h w (runKruskal order).carved p := by
  rw [gridAt_one_iff, ← pathFinset_iff_pathSet h w order hperm,
    mem_pathFinset, mem_allCells]
  tauto

/-- C1: every grid produced by `Maze::Generate` (with the spec-modelled
kruskal library processing an arbitrary shuffle `order` of the candidate
walls) is a perfect maze.  Its value-1 cells are exactly the rooms plus the
carved walls; they form a single connected component under 4-directional
adjacency (any two path cells are joined by a chain of adjacent path cells);
the path-adjacency graph has exactly `#pathcells - 1` edges (stated as
`2*(#pathcells - 1)` ordered adjacent pairs) — together with connectivity
this is the spec's acyclicity check; the path-adjacency graph is moreover
literally a tree (`SimpleGraph.IsTree`), with exactly one simple path
between any two of its vertices; and the number of path cells equals the
number of rooms plus the number of successful unions. -/
theorem C1_perfect_maze (m0 : Maze) (w h : Int) (order : List Cell)
    (hw : 3 ≤ w) (hh : 3 ≤ h)
    (hperm : order.Perm (candList (roundOdd h).toNat (roundOdd w).toNat)) :
    (∀ p : Cell, gridAt (Maze.Generate m0 w h order).grid p = 1 ↔
        pathSet (roundOdd h).toNat (roundOdd w).toNat (runKruskal order).carved p)
    ∧ (∀ p q : Cell,
        gridAt (Maze.Generate m0 w h order).grid p = 1 →
        gridAt (Maze.Generate m0 w h order).grid q = 1 →
        Reach (fun c => gridAt (Maze.Generate m0 w h order).grid c = 1) p q)
    ∧ adjPairCount (roundOdd h).toNat (roundOdd w).toNat order
        = 2 * (grid1Count (Maze.Generate m0 w h order).grid - 1)
    ∧ (pathGraph (roundOdd h).toNat (roundOdd w).toNat order).IsTree
    ∧ (∀ v u : {p : Cell // p ∈ pathFinset (roundOdd h).toNat (roundOdd w).toNat order},
        ∃! pth : (pathGraph (roundOdd h).toNat (roundOdd w).toNat order).Walk v u,
          pth.IsPath)
    ∧ grid1Count (Maze.Generate m0 w h order).grid
        = (roomList (roundOdd h).toNat (roundOdd w).toNat).length
          + (runKruskal order).unions := by
  have hw1 : 1 ≤ roundOdd w := roundOdd_pos w (by omega)
  have hh1 : 1 ≤ roundOdd h := roundOdd_pos h (by omega)
  have hwN : 1 ≤ (roundOdd w).toNat := by omega
  have hhN : 1 ≤ (roundOdd h).toNat := by omega
  have hgrid : (Maze.Generate m0 w h order).grid =
      kruskalGrid (roundOdd h).toNat (roundOdd w).toNat order :=
    Generate_grid_of_some m0 w h order _ (kruskalGenerate_pos _ _ order hh1 hw1)
  have hbridge : ∀ p : Cell,
      gridAt (Maze.Generate m0 w h order).grid p = 1 ↔
        pathSet (roundOdd h).toNat (roundOdd w).toNat (runKruskal order).carved p := by
    intro p
    rw [hgrid]
    exact gridAt_one_iff_pathSet _ _ order hperm p
  have htree := pathGraph_isTree _ _ order hhN hwN hperm
  refine ⟨hbridge, ?_, ?_, htree, ?_, ?_⟩
  · intro p q hp hq
    have hreach := kruskal_connected _ _ order hperm p q
      ((hbridge p).mp hp) ((hbridge q).mp hq)
    exact hreach.mono (fun x hx => (hbridge x).mpr hx)
  · rw [hgrid, grid1Count_kruskalGrid]
    exact adjPairCount_eq _ _ order hhN hwN hperm
  · exact (SimpleGraph.isTree_iff_existsUnique_path.mp htree).2
  · rw [hgrid, grid1Count_kruskalGrid, pathCells_length _ _ order hperm,
      unions_eq_carved_length order]

/-- Witness for C1 at the concrete 3×3 maze generated with the canonical
candidate order. -/
theorem C1_witness :
    (∀ p : Cell, gridAt (Maze.Generate maze0 3 3 (candList 3 3)).grid p = 1 ↔
        pathSet (roundOdd 3).toNat (roundOdd 3).toNat
          (runKruskal (candList 3 3)).carved p)
    ∧ (∀ p q : Cell,
        gridAt (Maze.Generate maze0 3 3 (candList 3 3)).grid p = 1 →
        gridAt (Maze.Generate maze0 3 3 (candList 3 3)).grid q = 1 →
        Reach (fun c => gridAt (Maze.Generate maze0 3 3 (candList 3 3)).grid c = 1) p q)
    ∧ adjPairCount (roundOdd 3).toNat (roundOdd 3).toNat (candList 3 3)
        = 2 * (grid1Count (Maze.Generate maze0 3 3 (candList 3 3)).grid - 1)
    ∧ (pathGraph (roundOdd 3).toNat (roundOdd 3).toNat (candList 3 3)).IsTree
    ∧ (∀ v u : {p : Cell //
          p ∈ pathFinset (roundOdd 3).toNat (roundOdd 3).toNat (candList 3 3)},
        ∃! pth : (pathGraph (roundOdd 3).toNat (roundOdd 3).toNat
            (candList 3 3)).Walk v u,
          pth.IsPath)
    ∧ grid1Count (Maze.Generate maze0 3 3 (candList 3 3)).grid
        = (roomList (roundOdd 3).toNat (roundOdd 3).toNat).length
          + (runKruskal (candList 3 3)).unions :=
  C1_perfect_maze maze0 3 3 (candList 3 3) (by omega) (by omega) (List.Perm.refl _)

end MazeProj
